import Mathlib

set_option maxHeartbeats 1000000
set_option linter.unusedVariables false

namespace NodeDB

/-- Python object identity is modelled by a numeric object id (`oid`); the
default `==`/`!=` on `Node` instances in the source is reference equality.
String-valued fields mirror `base_models.Node`; `node_type`, `parent` and
`edges` are kept as optional stringified values, `none` standing both for
Python `None` and for an unset value, since `getattr(n, f, None)` does not
distinguish the two. `cls` is the dotted path of the object's Python class,
consumed by the serializer. -/
structure Node where
  oid : Nat := 0
  id : String := ""
  name : String := ""
  «alias» : String := ""
  node_type : Option String := none
  parent_s : Option String := none
  edges_s : Option String := none
  cls : String := "nodedb.base_models.Node"
  deriving Repr, DecidableEq

/-- Reference equality of Python objects (`==`/`!=` with no custom `__eq__`). -/
def pyEq (a b : Node) : Bool :=
  a.oid == b.oid

/-- `hasattr(n, field)`: every annotated field of `base_models.Node` is turned
into a class-level property by `AutoPropertiesMeta`, so `hasattr` holds for
exactly these six names on every instance. -/
def hasattrB (n : Node) (field : String) : Bool :=
  field == "name" || field == "alias" || field == "node_type"
    || field == "parent" || field == "id" || field == "edges"

/-- `getattr(n, field, None)`, already stringified where the value is a
string; `none` is returned both for a missing attribute and for an attribute
whose value is `None`. -/
def pyattr (n : Node) (field : String) : Option String :=
  if field == "name" then some n.name
  else if field == "alias" then some n.«alias»
  else if field == "id" then some n.id
  else if field == "node_type" then n.node_type
  else if field == "parent" then n.parent_s
  else if field == "edges" then n.edges_s
  else none

/-- `base_models.Edge`: a named directed relation holding references to its
two endpoint nodes. -/
structure Edge where
  name : String := ""
  node_a : Node
  node_b : Node
  cls : String := "nodedb.base_models.Edge"
  deriving Repr, DecidableEq

/-- `database.Graph`: two ordered collections, insertion order preserved. -/
structure Graph where
  nodes : List Node := []
  edges : List Edge := []
  deriving Repr, DecidableEq

def add_node (g : Graph) (node : Node) : Graph :=
  { g with nodes := g.nodes ++ [node] }

def add_edge (g : Graph) (edge : Edge) : Graph :=
  { g with edges := g.edges ++ [edge] }

/-- `Graph.remove_node`: first prune the edges touching the node (reference
equality), then drop the node itself. -/
def remove_node (g : Graph) (node : Node) : Graph :=
  { g with
    edges := g.edges.filter (fun e => !(pyEq e.node_a node) && !(pyEq e.node_b node)),
    nodes := g.nodes.filter (fun n => !(pyEq n node)) }

/-- `Graph.get_node_by_id`: first node whose stringified id equals the query
(ids are modelled as strings, so `str` is the identity here). -/
def get_node_by_id (g : Graph) (node_id : String) : Option Node :=
  g.nodes.find? (fun n => n.id == node_id)

def get_node_by_alias (g : Graph) (node_alias : String) : Option Node :=
  g.nodes.find? (fun n => n.«alias» == node_alias)

def get_node_by_name (g : Graph) (node_name : String) : Option Node :=
  g.nodes.find? (fun n => node_name == n.name)

/-- Python `sorted_nodes[offset : stop]` with a nonnegative start and an
optional stop index. -/
def sliceTo (l : List Node) (offset : Nat) (stop : Option Nat) : List Node :=
  match stop with
  | none => l.drop offset
  | some s => (l.take s).drop offset

/-- `Graph.filter_nodes_by_field`: raises `AttributeError` when some node
lacks the field, else an equality filter against `getattr(n, field, None)`. -/
def filter_nodes_by_field (g : Graph) (field : String) (value : Option String) :
    Except String (List Node) :=
  if !(g.nodes.all (fun n => hasattrB n field)) then
    .error ("Field '" ++ field ++ "' not found in Node")
  else
    .ok (g.nodes.filter (fun n => pyattr n field == value))

/-- `Graph.sort_nodes_by`: same `hasattr` guard, then a stable sort on the
field's value (`getattr(n, field, "")`) and the `[offset : offset+limit]`
slice. -/
def sort_nodes_by (g : Graph) (field : String) (limit : Option Nat) (offset : Nat) :
    Except String (List Node) :=
  if !(g.nodes.all (fun n => hasattrB n field)) then
    .error ("Field '" ++ field ++ "' not found in Node")
  else
    .ok (sliceTo
      (g.nodes.mergeSort (fun a b => decide ((pyattr a field).getD "" ≤ (pyattr b field).getD "")))
      offset (limit.map (fun lim => offset + lim)))

/-- Length of the common run at the heads of two character lists. -/
def runLen : List Char → List Char → Nat
  | x :: xs, y :: ys => if x = y then runLen xs ys + 1 else 0
  | _, _ => 0

/-- difflib's `find_longest_match` over two whole sequences: the longest
common block `(i, j, size)`, preferring the smallest `i` and then the
smallest `j` (the scan is in `(i, j)` order and only a strictly larger block
replaces the current best). -/
def bestBlock (a b : List Char) : Nat × Nat × Nat :=
  (List.range a.length).foldl
    (fun best i =>
      (List.range b.length).foldl
        (fun best j =>
          let k := runLen (a.drop i) (b.drop j)
          if best.2.2 < k then (i, j, k) else best)
        best)
    (0, 0, 0)

/-- Total size of difflib's matching blocks: recursively take the longest
block and recurse on the pieces to its left and right. The fuel only bounds
the recursion depth; `a.length + b.length + 1` always suffices because every
level removes a nonempty block. -/
def totalMatches : Nat → List Char → List Char → Nat
  | 0, _, _ => 0
  | fuel + 1, a, b =>
    let ijk := bestBlock a b
    if ijk.2.2 = 0 then 0
    else
      totalMatches fuel (a.take ijk.1) (b.take ijk.2.1) + ijk.2.2
        + totalMatches fuel (a.drop (ijk.1 + ijk.2.2)) (b.drop (ijk.2.1 + ijk.2.2))

/-- `difflib.SequenceMatcher(None, a, b).ratio()`: the Ratcliff/Obershelp
similarity `2*M/T` with `M` the total matched size and `T` the sum of the
lengths (`1` for two empty strings). The spec pins the algorithm family and
explicitly allows any equivalent documented member of it; junk heuristics
for very long strings are not modelled. -/
def similarity (a b : String) : Rat :=
  let la := a.toList
  let lb := b.toList
  if la.length + lb.length = 0 then 1
  else (2 * (totalMatches (la.length + lb.length + 1) la lb) : Rat)
    / ((la.length + lb.length : Nat) : Rat)

/-- Python's `pre.startswith`, i.e. `pre` is a literal prefix. -/
def startsB : List Char → List Char → Bool
  | [], _ => true
  | _ :: _, [] => false
  | x :: xs, y :: ys => x == y && startsB xs ys

/-- Python's substring containment `needle in hay`. -/
def containsB (needle : List Char) : List Char → Bool
  | [] => startsB needle []
  | c :: rest => startsB needle (c :: rest) || containsB needle rest

/-- Loop of `Graph.get_closest_nodes_alias`: collect substring hits, but
return the first exact hit immediately. -/
def gcnaGo (q : String) : List Node → List Node → Node ⊕ List Node
  | [], acc => .inr acc
  | n :: rest, acc =>
    let acc' := if containsB q.toList n.«alias».toList then acc ++ [n] else acc
    if q == n.«alias» then .inl n else gcnaGo q rest acc'

def get_closest_nodes_alias (g : Graph) (q : String) : Node ⊕ List Node :=
  gcnaGo q g.nodes []

/-- One step of the fuzzy scan: replace the best candidate only when the new
similarity is strictly greater (`similarity > highest_similarity`). -/
def bfStep (q : String) (key : Node → String) (acc : Option Node × Rat) (n : Node) :
    Option Node × Rat :=
  if acc.2 < similarity q (key n) then (some n, similarity q (key n)) else acc

/-- The fuzzy scan shared by the closest-match helpers: fold over the nodes
keeping the best node so far, starting from `(None, 0)`. -/
def bestFuzzy (q : String) (key : Node → String) (nodes : List Node) : Option Node × Rat :=
  nodes.foldl (bfStep q key) (none, 0)

/-- The maximal similarity of the query against a projection of the nodes
(`0` for an empty collection); used to state the cutoff conditions. -/
def maxSim (q : String) (key : Node → String) (nodes : List Node) : Rat :=
  nodes.foldl (fun acc n => max acc (similarity q (key n))) 0

/-- `Graph.match_closest_node_alias`: exact match (via
`get_closest_nodes_alias`) wins, else the fuzzy scan gated by the cutoff. -/
def match_closest_node_alias (g : Graph) (q : String) (match_cutoff : Rat := 7/10) :
    Option Node :=
  let exact :=
    match get_closest_nodes_alias g q with
    | .inl n => if n.«alias» == q then some n else none
    | .inr _ => none
  match exact with
  | some n => some n
  | none =>
    let bf := bestFuzzy q (fun n => n.«alias») g.nodes
    if match_cutoff ≤ bf.2 then bf.1 else none

/-- `Graph.match_closest_node_name`: first exact name match wins, else the
fuzzy scan gated by the cutoff. -/
def match_closest_node_name (g : Graph) (q : String) (match_cutoff : Rat := 7/10) :
    Option Node :=
  match g.nodes.find? (fun n => q == n.name) with
  | some n => some n
  | none =>
    let bf := bestFuzzy q (fun n => n.name) g.nodes
    if match_cutoff ≤ bf.2 then bf.1 else none

/-- Concrete fixture nodes and graphs used by witnesses and counterexamples. -/
def cexNode : Node :=
  { oid := 1, id := "1", name := "nb", «alias» := "b" }

def cexGraph : Graph :=
  { nodes := [cexNode], edges := [] }

def wAl : Node :=
  { oid := 1, id := "1", name := "Alpha", «alias» := "al" }

def wAlG : Graph :=
  { nodes := [wAl], edges := [] }

def wXyz : Node :=
  { oid := 1, id := "xyz", name := "X" }

def wXyzG : Graph :=
  { nodes := [wXyz], edges := [] }

def wN1 : Node :=
  { oid := 1, id := "1", name := "abcx" }

def wN2 : Node :=
  { oid := 2, id := "2", name := "abcy" }

def wG : Graph :=
  { nodes := [wN1, wN2], edges := [] }

/-- One step of Python's `min` with a key: a later element replaces the
current minimum only when its key is strictly smaller. -/
def pyMinStep (acc n : Node) : Node :=
  if n.id.length < acc.id.length then n else acc

/-- Python `min(prefix_matches, key=lambda n: len(n.id))`: the first element
attaining the minimal id length. -/
def pyMinByIdLen (p : Node) (rest : List Node) : Node :=
  rest.foldl pyMinStep p

/-- The `prefix_matches` comprehension of `match_closest_node_id`: nodes
whose id has the query as a literal prefix. -/
def prefixMatches (g : Graph) (q : String) : List Node :=
  g.nodes.filter (fun n => startsB q.toList n.id.toList)

/-- `Graph.match_closest_node_id`: exact id match, else the shortest id with
the query as a literal prefix, else the fuzzy scan gated by the cutoff. -/
def match_closest_node_id (g : Graph) (q : String) (match_cutoff : Rat := 7/10) :
    Option Node :=
  match g.nodes.find? (fun n => n.id == q) with
  | some n => some n
  | none =>
    match prefixMatches g q with
    | p :: rest => some (pyMinByIdLen p rest)
    | [] =>
      let bf := bestFuzzy q (fun n => n.id) g.nodes
      if match_cutoff ≤ bf.2 then bf.1 else none

/-- Token kinds of `query.TOKEN_REGEX` (`SKIP` never reaches the token
list). -/
inductive TokKind where
  | SKIP
  | OR
  | AND
  | NEQ
  | EQ
  | LPAREN
  | RPAREN
  | IDENT
  | LITERAL
  deriving Repr, DecidableEq

/-- Python `\s` for the ASCII inputs of the query language. -/
def isPySpace (c : Char) : Bool :=
  c == ' ' || c == '\t' || c == '\n' || c == '\r'
    || c == Char.ofNat 11 || c == Char.ofNat 12

/-- First character of the `IDENT` pattern `[a-zA-Z_][\w]*`. -/
def isIdentStart (c : Char) : Bool :=
  c.isAlpha || c == '_'

/-- Continuation character `\w` of the `IDENT` pattern. -/
def isIdentChar (c : Char) : Bool :=
  c.isAlphanum || c == '_'

/-- Python `str.strip()`. -/
def stripChars (l : List Char) : List Char :=
  ((l.dropWhile isPySpace).reverse.dropWhile isPySpace).reverse

/-- One block of the greedy `LITERAL` pattern
`(?:[^&|()]+|\([^\)]+\))+`: a nonempty run outside `&|()`, or a
parenthesised nonempty run of non-`)` characters. -/
def litBlock (l : List Char) : Option (List Char × List Char) :=
  let s := l.takeWhile (fun c => !(c == '&' || c == '|' || c == '(' || c == ')'))
  if s.isEmpty then
    match l with
    | '(' :: rest =>
      let inner := rest.takeWhile (fun c => !(c == ')'))
      if inner.isEmpty then none
      else
        match rest.dropWhile (fun c => !(c == ')')) with
        | ')' :: r3 => some (('(' :: inner) ++ [')'], r3)
        | _ => none
    | _ => none
  else some (s, l.dropWhile (fun c => !(c == '&' || c == '|' || c == '(' || c == ')')))

/-- Greedy repetition of `litBlock` (the `+` of the `LITERAL` pattern);
every block is nonempty so the input length bounds the fuel. -/
def litRun : Nat → List Char → List Char × List Char
  | 0, l => ([], l)
  | fuel + 1, l =>
    match litBlock l with
    | some (s, r) =>
      let sr := litRun fuel r
      (s ++ sr.1, sr.2)
    | none => ([], l)

/-- `token_re.match` at the head of the remaining input: the alternatives of
`TOKEN_REGEX` tried in order, each matching greedily. -/
def matchTok (l : List Char) : Option (TokKind × List Char × List Char) :=
  match l with
  | [] => none
  | c :: rest =>
    if isPySpace c then some (.SKIP, l.takeWhile isPySpace, l.dropWhile isPySpace)
    else
      match l with
      | '|' :: '|' :: r => some (.OR, ['|', '|'], r)
      | '&' :: r => some (.AND, ['&'], r)
      | '!' :: '=' :: r => some (.NEQ, ['!', '='], r)
      | '=' :: r => some (.EQ, ['='], r)
      | '(' :: r => some (.LPAREN, ['('], r)
      | ')' :: r => some (.RPAREN, [')'], r)
      | _ =>
        if isIdentStart c then
          some (.IDENT, c :: rest.takeWhile isIdentChar, rest.dropWhile isIdentChar)
        else
          match litRun (l.length + 1) l with
          | ([], _) => none
          | (s, r) => some (.LITERAL, s, r)

/-- Two leading `|` characters (the `query[pos:pos+2] == '||'` check). -/
def twoBar : List Char → Bool
  | '|' :: '|' :: _ => true
  | _ => false

/-- The raw right-hand-side capture of `smart_tokenize`: consume characters
until a top-level `&`, a top-level `||`, an unmatched `)` or end of input,
tracking parenthesis depth. Fuel is bounded by the input length. -/
def rhsScan : Nat → Nat → List Char → List Char × List Char
  | 0, _, l => ([], l)
  | _ + 1, _, [] => ([], [])
  | fuel + 1, depth, c :: rest =>
    if c = '(' then
      let sr := rhsScan fuel (depth + 1) rest
      (c :: sr.1, sr.2)
    else if c = ')' then
      if depth = 0 then ([], c :: rest)
      else
        let sr := rhsScan fuel (depth - 1) rest
        (c :: sr.1, sr.2)
    else if twoBar (c :: rest) && depth == 0 then ([], c :: rest)
    else if c == '&' && depth == 0 then ([], c :: rest)
    else
      let sr := rhsScan fuel depth rest
      (c :: sr.1, sr.2)

/-- Main loop of `smart_tokenize`: emit tokens, skipping whitespace; an
`IDENT` directly followed by `=`/`!=` switches to the raw capture of the
right-hand side, emitted as a stripped `LITERAL`. Every iteration consumes
at least one character, so the input length bounds the fuel. -/
def tokenizeGo : Nat → List Char → Except String (List (TokKind × String))
  | 0, _ => .error "tokenizer fuel exhausted"
  | _ + 1, [] => .ok []
  | fuel + 1, l =>
    match matchTok l with
    | none => .error ("Unexpected character: `" ++ String.mk l ++ "` — Verify your syntax.")
    | some (.SKIP, _, r) => tokenizeGo fuel r
    | some (.IDENT, s, r) =>
      match matchTok r with
      | some (.EQ, opLex, r2) =>
        let cap := rhsScan (r2.length + 1) 0 r2
        (tokenizeGo fuel cap.2).map (fun rest =>
          (.IDENT, String.mk s) :: (.EQ, String.mk opLex)
            :: (.LITERAL, String.mk (stripChars cap.1)) :: rest)
      | some (.NEQ, opLex, r2) =>
        let cap := rhsScan (r2.length + 1) 0 r2
        (tokenizeGo fuel cap.2).map (fun rest =>
          (.IDENT, String.mk s) :: (.NEQ, String.mk opLex)
            :: (.LITERAL, String.mk (stripChars cap.1)) :: rest)
      | _ =>
        (tokenizeGo fuel r).map (fun rest => (.IDENT, String.mk s) :: rest)
    | some (k, s, r) =>
      (tokenizeGo fuel r).map (fun rest => (k, String.mk s) :: rest)

/-- `query.smart_tokenize`. -/
def smart_tokenize (q : String) : Except String (List (TokKind × String)) :=
  tokenizeGo (q.toList.length + 1) q.toList

/-- Query AST: the source's tuples `('MATCH', f, op, p)`, `('and', l, r)`
and `('or', l, r)`. -/
inductive Ast where
  | MATCH (field op pattern : String)
  | AND (left right : Ast)
  | OR (left right : Ast)
  deriving Repr, DecidableEq

/-- `query.parse_match`; out-of-range token accesses mirror Python's
`IndexError`. -/
def parse_match (toks : List (TokKind × String)) (i : Nat) : Except String (Ast × Nat) :=
  match toks.get? i with
  | none => .error "IndexError: list index out of range"
  | some t =>
    if t.1 = .IDENT then
      match toks.get? (i + 1) with
      | none => .error "IndexError: list index out of range"
      | some t2 =>
        if t2.1 = .EQ ∨ t2.1 = .NEQ then
          let parts := (toks.drop (i + 2)).takeWhile
            (fun t => !(t.1 == .AND || t.1 == .OR || t.1 == .RPAREN))
          .ok (.MATCH t.2 t2.2
              (String.mk (stripChars (String.join (parts.map (fun t => t.2))).toList)),
            i + 2 + parts.length)
        else .error "Expected = or !="
    else .error ("Expected field name but got '" ++ t.2 ++ "' at position " ++ toString i)

/-- Parser mode: the four mutually recursive functions of `query.parse_expr`
(`parse_atom`, the outer `parse_binop` loop, its inner climbing loop, and
the `parse_expr` body) are combined into one fuel-indexed function with a
mode tag so that the recursion is structural on the fuel and the kernel can
evaluate it. -/
inductive PMode where
  | atomM
  | binopM (precedence : Nat) (left : Ast)
  | climbM (currPrec : Nat) (right : Ast)
  | exprM

/-- The combined recursive parser; each mode mirrors the corresponding
source function line by line. -/
def parseGo : Nat → PMode → List (TokKind × String) → Nat → Except String (Ast × Nat)
  | 0, _, _, _ => .error "parser fuel exhausted"
  | fuel + 1, .atomM, toks, i =>
    match toks.get? i with
    | none => .error "Unexpected end of input"
    | some t =>
      if t.1 = .LPAREN then
        match parseGo fuel .exprM toks (i + 1) with
        | .error e => .error e
        | .ok (node, i2) =>
          match toks.get? i2 with
          | none => .error "Unclosed parenthesis. Expected ')' before end of input"
          | some t2 =>
            if t2.1 = .RPAREN then .ok (node, i2 + 1)
            else .error ("Expected ')', got '" ++ t2.2 ++ "' at position " ++ toString i2)
      else if t.1 = .IDENT then parse_match toks i
      else
        .error ("Unexpected token '" ++ t.2 ++ "' at position " ++ toString i
          ++ " — expected field or '('")
  | fuel + 1, .binopM precedence left, toks, i =>
    match toks.get? i with
    | none => .ok (left, i)
    | some t =>
      if t.1 = .RPAREN then .ok (left, i)
      else if ¬(t.1 = .AND ∨ t.1 = .OR) then .ok (left, i)
      else
        let currPrec := if t.1 = .AND then 2 else 1
        if currPrec < precedence then .ok (left, i)
        else if toks.length ≤ i + 1 then
          .error "Operator must be followed by a field expression, but input ended"
        else
          match parseGo fuel .atomM toks (i + 1) with
          | .error e => .error e
          | .ok (right, i2) =>
            match parseGo fuel (.climbM currPrec right) toks i2 with
            | .error e => .error e
            | .ok (right2, i3) =>
              parseGo fuel
                (.binopM precedence (if t.1 = .AND then .AND left right2 else .OR left right2))
                toks i3
  | fuel + 1, .climbM currPrec right, toks, i =>
    match toks.get? i with
    | none => .ok (right, i)
    | some t =>
      if t.1 = .AND ∨ t.1 = .OR then
        let nextPrec := if t.1 = .AND then 2 else 1
        if currPrec < nextPrec then
          match parseGo fuel (.binopM nextPrec right) toks i with
          | .error e => .error e
          | .ok (right2, i2) => parseGo fuel (.climbM currPrec right2) toks i2
        else .ok (right, i)
      else .ok (right, i)
  | fuel + 1, .exprM, toks, i =>
    match parseGo fuel .atomM toks i with
    | .error e => .error e
    | .ok (left, i2) => parseGo fuel (.binopM 0 left) toks i2

/-- `query.parse_expr` as called by the engine; the fuel comfortably exceeds
what the recursion can consume on the token list. -/
def parse_expr (toks : List (TokKind × String)) : Except String (Ast × Nat) :=
  parseGo (4 * toks.length + 8) .exprM toks 0

/-- `Graph._evaluate_ast`. The external `re` module enters as
`search pattern value`, which reports whether the pattern is found in the
value by unanchored search, or fails with the regex compilation error text
for an invalid pattern (compilation does not depend on the searched value).
A `None`-valued or missing field makes the match false before any search. -/
def evaluate_ast (search : String → String → Except String Bool) :
    Ast → Node → Except String Bool
  | .MATCH field op pattern, n =>
    match pyattr n field with
    | none => .ok false
    | some v =>
      if op = "=" then
        match search pattern v with
        | .ok b => .ok b
        | .error e => .error ("Invalid regex: '" ++ pattern ++ "' (" ++ e ++ ")")
      else if op = "!=" then
        match search pattern v with
        | .ok b => .ok (!b)
        | .error e => .error ("Invalid regex: '" ++ pattern ++ "' (" ++ e ++ ")")
      else .error ("Unknown operator: " ++ op)
  | .AND l r, n => do
    let a ← evaluate_ast search l n
    let b ← evaluate_ast search r n
    .ok (a && b)
  | .OR l r, n => do
    let a ← evaluate_ast search l n
    let b ← evaluate_ast search r n
    .ok (a || b)

/-- Python list comprehension with a possibly raising predicate: elements
are tested left to right and the first raise aborts. -/
def filterE (p : Node → Except String Bool) : List Node → Except String (List Node)
  | [] => .ok []
  | n :: rest => do
    let b ← p n
    let r ← filterE p rest
    .ok (if b then n :: r else r)

/-- Decidable equality of `Except` results, used to evaluate the embedded
tokenizer and parser on concrete inputs. -/
instance {ε α : Type} [DecidableEq ε] [DecidableEq α] : DecidableEq (Except ε α) :=
  fun a b =>
    match a, b with
    | .ok x, .ok y =>
      if h : x = y then isTrue (by rw [h]) else isFalse (fun hh => h (Except.ok.inj hh))
    | .error x, .error y =>
      if h : x = y then isTrue (by rw [h]) else isFalse (fun hh => h (Except.error.inj hh))
    | .ok _, .error _ => isFalse (fun hh => Except.noConfusion hh)
    | .error _, .ok _ => isFalse (fun hh => Except.noConfusion hh)

/-- A trivial stand-in regex engine used by witnesses: substring containment
of the pattern, never failing. -/
def subSearch (pattern value : String) : Except String Bool :=
  .ok (containsB pattern.toList value.toList)

/-- A stand-in regex engine used by witnesses to exercise the error path: it
rejects the lone pattern `[` the way `re` rejects an unterminated class. -/
def brokenSearch (pattern value : String) : Except String Bool :=
  if pattern = "[" then .error "unterminated character set at position 0"
  else .ok false

/-- `Graph.find_nodes_by_query`: tokenize, parse, reject unconsumed trailing
tokens, then keep the nodes on which the AST evaluates true. -/
def find_nodes_by_query (search : String → String → Except String Bool)
    (g : Graph) (query : String) : Except String (List Node) := do
  let toks ← smart_tokenize query
  let res ← parse_expr toks
  if res.2 ≠ toks.length then
    .error ("Unexpected trailing tokens: " ++ String.join ((toks.drop res.2).map (fun t => t.2)))
  else
    filterE (fun n => evaluate_ast search res.1 n) g.nodes

/-- JSON documents as produced by `json.loads`: the decoded tree walked by
the phase-2 codec. Object key order is the insertion order of the Python
dict. -/
inductive Json where
  | null
  | bool (b : Bool)
  | num (n : Int)
  | str (s : String)
  | arr (items : List Json)
  | obj (fields : List (String × Json))
  deriving Repr

/-- `d[key]` on a JSON object (first occurrence; keys of decoded JSON are
unique). -/
def lookupFirst : List (String × Json) → String → Option Json
  | [], _ => none
  | (k, v) :: rest, key => if k == key then some v else lookupFirst rest key

/-- Python `key in d`. -/
def hasKey (fields : List (String × Json)) (key : String) : Bool :=
  fields.any (fun kv => kv.1 == key)

/-- The `"py/object" in d` / `"py/type" in d` discrimination shared by both
phase-2 callbacks. -/
def pickleKey (fields : List (String × Json)) : Option String :=
  if hasKey fields "py/object" then some "py/object"
  else if hasKey fields "py/type" then some "py/type"
  else none

/-- `d.pop(key, default)`'s removal part. -/
def removeFirst : List (String × Json) → String → List (String × Json)
  | [], _ => []
  | (k, v) :: rest, key => if k == key then rest else (k, v) :: removeFirst rest key

/-- Python `d[key] = v`: replace the value at the first occurrence of the
key, else append the pair. -/
def setKey : List (String × Json) → String → Json → List (String × Json)
  | [], key, v => [(key, v)]
  | (k, w) :: rest, key, v =>
    if k == key then (k, v) :: rest else (k, w) :: setKey rest key v

/-- Replace the value at the first occurrence of the key, if present. -/
def replaceFirstVal : List (String × Json) → String → Json → List (String × Json)
  | [], _, _ => []
  | (k0, v0) :: rest, k, v =>
    if k0 == k then (k0, v) :: rest else (k0, v0) :: replaceFirstVal rest k v

/-- The reflection capabilities the codec consumes (the spec declares the
"enumerate all currently known types" utilities external collaborators):
`importCls` is `importlib` resolution (returning the resolved class, `none`
on failure), `clsKind` classifies a resolved class by the `issubclass`
tests of `serialize_phase2` (`"NODE"`, `"EDGE"`, `"BASEMODEL"` or other),
`allClasses` is `get_all_classes_from_loaded_modules`, `subclassesOf` is
`get_all_subclasses_of` keyed by the base-category name, `moduleClasses` is
`get_all_classes_from_specific_loaded_module`, and `overrideOk` is the
validity check of the spec-modelled `validate_type_overrides`. -/
structure TypeEnv where
  importCls : String → Option String
  clsKind : String → String
  allClasses : List String
  subclassesOf : String → List String
  moduleClasses : String → List String
  overrideOk : String → String → Bool

/-- `difflib.get_close_matches(word, possibilities, n=1, cutoff)`: keep the
possibilities whose ratio to the word meets the cutoff and return the first
one attaining the maximum. -/
def getCloseMatch1 (cutoff : Rat) (word : String) (poss : List String) : Option String :=
  match poss.filter (fun p => cutoff ≤ similarity p word) with
  | [] => none
  | m :: rest =>
    some (rest.foldl (fun acc p =>
      if similarity acc word < similarity p word then p else acc) m)

/-- `jpickle_ex.fuzzy_type_match`: closest known name at the fixed cutoff
`0.7`. -/
def fuzzy_type_match (type_path : String) (known_types : List String) : Option String :=
  getCloseMatch1 (7/10) type_path known_types

/-- `type_path.split(".")[0]`. -/
def topNamespace (p : String) : String :=
  String.mk (p.toList.takeWhile (fun c => !(c == '.')))

/-- `jpickle_ex.find_type_fallback`: fuzzy-match first against the types
descending from the recorded base category, then against every class of the
identifier's top-level namespace. -/
def find_type_fallback (env : TypeEnv) (type_path : String) (base_model : String) :
    Option String :=
  match fuzzy_type_match type_path (env.subclassesOf base_model) with
  | some a => some a
  | none => fuzzy_type_match type_path (env.moduleClasses (topNamespace type_path))

/-- Stand-in for Python's recursion limit in the recursive fuzzy retry of
`resolve_class_type`. -/
def resolveFuel : Nat := 1000

/-- `jpickle_ex.resolve_class_type`: `importlib` resolution, retried through
the fuzzy fallback (against `BaseModel`'s subtypes) on failure. -/
def resolve_class_type (env : TypeEnv) : Nat → String → Option String
  | 0, _ => none
  | fuel + 1, p =>
    match env.importCls p with
    | some c => some c
    | none =>
      match find_type_fallback env p "BASEMODEL" with
      | some fb => resolve_class_type env fuel fb
      | none => none

/-- The per-call state of `serialize_phase2`: the minted registry, the
dedup `reverse` table, a counter standing for the fresh-uuid draws, and the
emitted warnings. -/
structure SerState where
  registry : List (String × String × String) := []
  reverse : List (String × String) := []
  counter : Nat := 0
  warns : List String := []
  deriving Repr, DecidableEq

/-- Fresh opaque keys `"EXTRACT_" + uuid4()`: distinct draws of `uuid4` are
modelled by a counter rendered in unary. -/
def mintUid (c : Nat) : String :=
  "EXTRACT_" ++ String.mk (List.replicate c 'u')

def lookupA : List (String × String) → String → Option String
  | [], _ => none
  | (k, v) :: rest, key => if k == key then some v else lookupA rest key

def lookupReg : List (String × String × String) → String → Option (String × String)
  | [], _ => none
  | (k, p, b) :: rest, key => if k == key then some (p, b) else lookupReg rest key

/-- The base-category classification of `serialize_phase2`: resolve the
class and read off its `issubclass` category, warning and defaulting to
`NODE` when resolution fails (the `else`-arm default is also `NODE`). -/
def classifyPath (env : TypeEnv) (p : String) : String × List String :=
  match resolve_class_type env resolveFuel p with
  | some c =>
    (if env.clsKind c = "NODE" then "NODE"
     else if env.clsKind c = "EDGE" then "EDGE"
     else if env.clsKind c = "BASEMODEL" then "BASEMODEL"
     else "NODE", [])
  | none => ("NODE", ["Could not resolve class for: " ++ p])

/-- The `serialize_phase2` callback on one mapping: reuse the opaque key of
an already-seen identifier, else classify the identifier, mint a fresh key
and record it in the registry and the reverse table. Only the replacement
at the pickle key is reported; the walker installs it. A non-string tag
value is not supported by the model (Python would attempt to hash it). -/
def serTag (env : TypeEnv) (fields : List (String × Json)) (st : SerState) :
    Except String (Option (String × String) × SerState) :=
  match pickleKey fields with
  | none => .ok (none, st)
  | some k =>
    match lookupFirst fields k with
    | some (.str p) =>
      match lookupA st.reverse p with
      | some uid => .ok (some (k, uid), st)
      | none =>
        let cw := classifyPath env p
        let uid := mintUid st.counter
        .ok (some (k, uid),
          { registry := st.registry ++ [(uid, p, cw.1)],
            reverse := st.reverse ++ [(p, uid)],
            counter := st.counter + 1,
            warns := st.warns ++ cw.2 })
    | _ => .error "TypeError: unhashable type tag value"

/-- `registry[uid]` on the popped registry document. -/
def jsonGet (reg : Json) (key : String) : Option Json :=
  match reg with
  | .obj fields => lookupFirst fields key
  | _ => none

/-- The `deserialize_phase2` callback on one mapping: an opaque key
(a string starting with `EXTRACT_` and present in the registry) is restored
to, in order: the caller's override, unconditionally; the identifier itself
when currently known; a fuzzy fallback scoped by the recorded base category
(with a warning naming the substitution); else a resolution error in strict
mode or a warning leaving the identifier in place in lenient mode. Any
other value is left alone. -/
def desTag (env : TypeEnv) (ov : List (String × String)) (strict : Bool) (reg : Json)
    (fields : List (String × Json)) (ws : List String) :
    Except String (Option (String × String) × List String) :=
  match pickleKey fields with
  | none => .ok (none, ws)
  | some k =>
    match lookupFirst fields k with
    | some (.str uid) =>
      if startsB "EXTRACT_".toList uid.toList && (jsonGet reg uid).isSome then
        match jsonGet reg uid with
        | some (.obj efields) =>
          match lookupFirst efields "path", lookupFirst efields "base" with
          | some (.str p), some (.str b) =>
            match lookupA ov p with
            | some o => .ok (some (k, o), ws)
            | none =>
              if env.allClasses.contains p then .ok (some (k, p), ws)
              else
                match find_type_fallback env p b with
                | some a =>
                  .ok (some (k, a), ws ++ ["Fuzzy matched `" ++ p ++ "` to `" ++ a ++ "`"])
                | none =>
                  let msg := "The object `" ++ p ++ "` could not be found.\n"
                    ++ "Fuzzy matching could also not find a replace that was similar enough."
                  if strict then .error msg
                  else .ok (some (k, p), ws ++ [msg])
          | _, _ => .error "KeyError: registry entry"
        | some _ => .error "TypeError: registry entry is not a mapping"
        | none => .ok (none, ws)
      else .ok (none, ws)
    | _ => .ok (none, ws)

mutual

/-- `utils.recurse_json`, specialised to the phase-2 callbacks: on a mapping
the callback only ever replaces the value at the type-tag key by a string
(possibly extending its state), after which the walk descends into every
value; the replaced value is a string leaf, into which descending is the
identity, so the walk recurses over the original subterms and installs the
replacement directly. -/
def walkJ {σ : Type}
    (cb : List (String × Json) → σ → Except String (Option (String × String) × σ)) :
    Json → σ → Except String (Json × σ)
  | .obj fields, s =>
    match cb fields s with
    | .error e => .error e
    | .ok (rep, s1) =>
      match walkF cb rep fields s1 with
      | .error e => .error e
      | .ok (fields2, s2) => .ok (.obj fields2, s2)
  | .arr items, s =>
    match walkL cb items s with
    | .error e => .error e
    | .ok (items2, s2) => .ok (.arr items2, s2)
  | j, s => .ok (j, s)
  termination_by structural j s => j

/-- Elementwise walk of an array. -/
def walkL {σ : Type}
    (cb : List (String × Json) → σ → Except String (Option (String × String) × σ)) :
    List Json → σ → Except String (List Json × σ)
  | [], s => .ok ([], s)
  | x :: rest, s =>
    match walkJ cb x s with
    | .error e => .error e
    | .ok (x2, s1) =>
      match walkL cb rest s1 with
      | .error e => .error e
      | .ok (rest2, s2) => .ok (x2 :: rest2, s2)
  termination_by structural l s => l

/-- Walk of a mapping's fields with the callback's replacement installed at
the first occurrence of the replaced key. -/
def walkF {σ : Type}
    (cb : List (String × Json) → σ → Except String (Option (String × String) × σ)) :
    Option (String × String) → List (String × Json) → σ →
      Except String (List (String × Json) × σ)
  | _, [], s => .ok ([], s)
  | some (rk, rv), (k, v) :: rest, s =>
    if k == rk then
      match walkF cb none rest s with
      | .error e => .error e
      | .ok (rest2, s2) => .ok ((k, .str rv) :: rest2, s2)
    else
      match walkJ cb v s with
      | .error e => .error e
      | .ok (v2, s1) =>
        match walkF cb (some (rk, rv)) rest s1 with
        | .error e => .error e
        | .ok (rest2, s2) => .ok ((k, v2) :: rest2, s2)
  | none, (k, v) :: rest, s =>
    match walkJ cb v s with
    | .error e => .error e
    | .ok (v2, s1) =>
      match walkF cb none rest s1 with
      | .error e => .error e
      | .ok (rest2, s2) => .ok ((k, v2) :: rest2, s2)
  termination_by structural rep l s => l

end

/-- The tag substitution applied by a caller-supplied override map. -/
def ovF (ov : List (String × String)) (p : String) : String :=
  (lookupA ov p).getD p

mutual

/-- The pure shape of a decode of an encode: every type-tag string is
mapped through `f`, everything else is unchanged. -/
def mapTagsJ (f : String → String) : Json → Json
  | .obj fields =>
    match pickleKey fields with
    | some k =>
      match lookupFirst fields k with
      | some (.str p) => .obj (replaceFirstVal (mapTagsF f fields) k (.str (f p)))
      | _ => .obj (mapTagsF f fields)
    | none => .obj (mapTagsF f fields)
  | .arr items => .arr (mapTagsL f items)
  | j => j
  termination_by structural j => j

def mapTagsL (f : String → String) : List Json → List Json
  | [] => []
  | x :: rest => mapTagsJ f x :: mapTagsL f rest
  termination_by structural l => l

def mapTagsF (f : String → String) : List (String × Json) → List (String × Json)
  | [] => []
  | (k, v) :: rest => (k, mapTagsJ f v) :: mapTagsF f rest
  termination_by structural l => l

end

mutual

/-- Every type-tag value in the tree is a string that either has an
override or names a currently known class: the condition under which decode
restores every tag without fuzzy fallback. -/
def tagsOkJ (known : List String) (ov : List (String × String)) : Json → Bool
  | .obj fields =>
    (match pickleKey fields with
     | some k =>
       match lookupFirst fields k with
       | some (.str p) => (lookupA ov p).isSome || known.contains p
       | _ => false
     | none => true)
    && tagsOkF known ov fields
  | .arr items => tagsOkL known ov items
  | _ => true
  termination_by structural j => j

def tagsOkL (known : List String) (ov : List (String × String)) : List Json → Bool
  | [] => true
  | x :: rest => tagsOkJ known ov x && tagsOkL known ov rest
  termination_by structural l => l

def tagsOkF (known : List String) (ov : List (String × String)) :
    List (String × Json) → Bool
  | [] => true
  | (_, v) :: rest => tagsOkJ known ov v && tagsOkF known ov rest
  termination_by structural l => l

end

mutual

/-- Structural size of a document, the induction measure for the walkers. -/
def jsizeJ : Json → Nat
  | .obj fields => 1 + jsizeF fields
  | .arr items => 1 + jsizeL items
  | _ => 1
  termination_by structural j => j

def jsizeL : List Json → Nat
  | [] => 0
  | x :: rest => 1 + jsizeJ x + jsizeL rest
  termination_by structural l => l

def jsizeF : List (String × Json) → Nat
  | [] => 0
  | (_, v) :: rest => 1 + jsizeJ v + jsizeF rest
  termination_by structural l => l

end

/-- Modelled from the spec: `validate_type_overrides` is imported from
`utils` but absent from the provided sources. Per the spec, caller-supplied
overrides are validated (format/existence checks, abstracted as the
environment capability `overrideOk`) before use; invalid overrides fail
fast in strict-override mode and warn in lenient mode. -/
def validate_type_overrides (env : TypeEnv) (ov : List (String × String))
    (strict : Bool) : Except String (List String) :=
  let bad := ov.filter (fun kv => !(env.overrideOk kv.1 kv.2))
  if bad.isEmpty then .ok []
  else if strict then .error "Invalid type overrides"
  else .ok (bad.map (fun kv => "Invalid type override: " ++ kv.1 ++ " -> " ++ kv.2))

/-- The registry table attached under the reserved top-level key. -/
def regToJson (reg : List (String × String × String)) : Json :=
  .obj (reg.map (fun e => (e.1, Json.obj [("path", .str e.2.1), ("base", .str e.2.2)])))

/-- `jpickle_ex.serialize_phase2`: walk the document minting opaque keys,
then attach the registry under `"REGISTRY"`. -/
def serialize_phase2 (env : TypeEnv) (data : Json) : Except String (Json × SerState) :=
  match walkJ (serTag env) data {} with
  | .error e => .error e
  | .ok (t, st) =>
    match t with
    | .obj fields => .ok (.obj (setKey fields "REGISTRY" (regToJson st.registry)), st)
    | _ => .error "TypeError: cannot attach REGISTRY"

/-- `jpickle_ex.deserialize_phase2`: validate the overrides, pop the
registry off the top level, then walk the tree restoring identifiers; the
returned list carries the emitted warnings. -/
def deserialize_phase2 (env : TypeEnv) (ov : List (String × String))
    (strict_class_resolve : Bool) (strict_typeoverrides : Bool) (data : Json) :
    Except String (Json × List String) :=
  match validate_type_overrides env ov strict_typeoverrides with
  | .error e => .error e
  | .ok ws0 =>
    match data with
    | .obj fields =>
      walkJ (desTag env ov strict_class_resolve ((lookupFirst fields "REGISTRY").getD (.obj [])))
        (.obj (removeFirst fields "REGISTRY")) ws0
    | _ => .error "AttributeError: 'pop' requires a mapping"

/-- Modelled from the spec: `jsonpickle.encode` is an external collaborator;
per the persisted-format section, every object becomes one mapping carrying
its `py/object` type identifier and its fields, edge endpoints embedded as
nested node mappings. -/
def encodeNode (n : Node) : Json :=
  .obj [("py/object", .str n.cls), ("id", .str n.id), ("name", .str n.name),
    ("alias", .str n.«alias»),
    ("node_type", match n.node_type with | some s => .str s | none => .null)]

def encodeEdge (e : Edge) : Json :=
  .obj [("py/object", .str e.cls), ("name", .str e.name),
    ("node_a", encodeNode e.node_a), ("node_b", encodeNode e.node_b)]

/-- The type identifier of the `Graph` class itself. -/
def graphPath : String := "nodedb.database.Graph"

def encodeGraph (g : Graph) : Json :=
  .obj [("py/object", .str graphPath),
    ("nodes", .arr (g.nodes.map encodeNode)),
    ("edges", .arr (g.edges.map encodeEdge))]

/-- `encodeNode` with the type tag substituted, the shape `mapTagsJ`
produces on an encoded node. -/
def encodeNodeF (f : String → String) (n : Node) : Json :=
  .obj [("py/object", .str (f n.cls)), ("id", .str n.id), ("name", .str n.name),
    ("alias", .str n.«alias»),
    ("node_type", match n.node_type with | some s => .str s | none => .null)]

def encodeEdgeF (f : String → String) (e : Edge) : Json :=
  .obj [("py/object", .str (f e.cls)), ("name", .str e.name),
    ("node_a", encodeNodeF f e.node_a), ("node_b", encodeNodeF f e.node_b)]

def encodeGraphF (f : String → String) (g : Graph) : Json :=
  .obj [("py/object", .str (f graphPath)),
    ("nodes", .arr (g.nodes.map (encodeNodeF f))),
    ("edges", .arr (g.edges.map (encodeEdgeF f)))]

/-- Option-valued map over a list, structurally recursive (used to decode the
node and edge arrays back into records). -/
def mapO (f : α → Option β) : List α → Option (List β)
  | [] => some []
  | x :: xs =>
    match f x, mapO f xs with
    | some y, some ys => some (y :: ys)
    | _, _ => none

/-- Modelled from the spec: `jsonpickle.decode` reconstructs each object
from its `py/object` tag and fields. Object identity of freshly constructed
objects carries no information, so decoded `oid`s are `0`. -/
def decodeNode (j : Json) : Option Node :=
  match j with
  | .obj fields =>
    match lookupFirst fields "py/object", lookupFirst fields "id",
        lookupFirst fields "name", lookupFirst fields "alias",
        lookupFirst fields "node_type" with
    | some (.str cls), some (.str i), some (.str nm), some (.str al), some nt =>
      match nt with
      | .null =>
        some { oid := 0, id := i, name := nm, «alias» := al, node_type := none, cls := cls }
      | .str s =>
        some { oid := 0, id := i, name := nm, «alias» := al, node_type := some s, cls := cls }
      | _ => none
    | _, _, _, _, _ => none
  | _ => none

def decodeEdge (j : Json) : Option Edge :=
  match j with
  | .obj fields =>
    match lookupFirst fields "py/object", lookupFirst fields "name",
        lookupFirst fields "node_a", lookupFirst fields "node_b" with
    | some (.str cls), some (.str nm), some ja, some jb =>
      match decodeNode ja, decodeNode jb with
      | some na, some nb => some { name := nm, node_a := na, node_b := nb, cls := cls }
      | _, _ => none
    | _, _, _, _ => none
  | _ => none

def decodeGraph (j : Json) : Option Graph :=
  match j with
  | .obj fields =>
    match lookupFirst fields "py/object", lookupFirst fields "nodes",
        lookupFirst fields "edges" with
    | some (.str _), some (.arr nodeJs), some (.arr edgeJs) =>
      match mapO decodeNode nodeJs, mapO decodeEdge edgeJs with
      | some ns, some es => some { nodes := ns, edges := es }
      | _, _ => none
    | _, _, _ => none
  | _ => none

/-- `Graph.save` with the file system abstracted away: the saved document is
the phase-2 transform of the jsonpickle encoding (the degenerate-node
cleanup and the directory/emptiness guards cannot fire on a well-typed
in-memory graph). -/
def save (env : TypeEnv) (g : Graph) : Except String Json :=
  match serialize_phase2 env (encodeGraph g) with
  | .error e => .error e
  | .ok (t, _) => .ok t

/-- `Graph.load`: with a `REGISTRY` key the document is phase-2 decoded and
then jsonpickle-decoded; a legacy document is first re-encoded to
synthesize a registry. -/
def load (env : TypeEnv) (ov : List (String × String)) (j : Json) : Except String Graph :=
  match j with
  | .obj fields =>
    if hasKey fields "REGISTRY" then
      match deserialize_phase2 env ov false true j with
      | .error e => .error e
      | .ok (d, _) =>
        match decodeGraph d with
        | some g => .ok g
        | none => .error "jsonpickle.decode failed"
    else
      match serialize_phase2 env j with
      | .error e => .error e
      | .ok (s, _) =>
        match deserialize_phase2 env ov false true s with
        | .error e => .error e
        | .ok (d, _) =>
          match decodeGraph d with
          | some g => .ok g
          | none => .error "jsonpickle.decode failed"
  | _ => .error "TypeError: document is not a mapping"

/-- The invariant of the serializer state: every registry key is a minted
opaque key below the counter, and the dedup table maps a path only to a key
the registry maps back to that path. -/
def SerInv (st : SerState) : Prop :=
  (∀ u p b, lookupReg st.registry u = some (p, b) → ∃ i, i < st.counter ∧ u = mintUid i)
  ∧ (∀ p u, lookupA st.reverse p = some u → ∃ b, lookupReg st.registry u = some (p, b))

/-- Registry extension: lookups of the smaller registry are preserved. -/
def RegLe (r1 r2 : List (String × String × String)) : Prop :=
  ∀ u v, lookupReg r1 u = some v → lookupReg r2 u = some v

/-- The popped registry document subsumes a registry table. -/
def RegLeJ (reg : List (String × String × String)) (regJ : Json) : Prop :=
  ∀ u p b, lookupReg reg u = some (p, b) →
    ∃ efields, jsonGet regJ u = some (.obj efields)
      ∧ lookupFirst efields "path" = some (.str p)
      ∧ lookupFirst efields "base" = some (.str b)

/-- Pairwise equality of the persisted node fields. -/
def nodeFieldsEq (a b : Node) : Prop :=
  a.id = b.id ∧ a.name = b.name ∧ a.«alias» = b.«alias» ∧ a.node_type = b.node_type

/-- Pairwise equality of the persisted edge fields. -/
def edgeFieldsEq (a b : Edge) : Prop :=
  a.name = b.name ∧ nodeFieldsEq a.node_a b.node_a ∧ nodeFieldsEq a.node_b b.node_b

/-- A node as reconstructed after a load whose type tag went through the
substitution `f` (fresh object identity, unpersisted fields reset). -/
def retagNode (f : String → String) (n : Node) : Node :=
  { oid := 0, id := n.id, name := n.name, «alias» := n.«alias»,
    node_type := n.node_type, cls := f n.cls }

def retagEdge (f : String → String) (e : Edge) : Edge :=
  { name := e.name, node_a := retagNode f e.node_a, node_b := retagNode f e.node_b,
    cls := f e.cls }

/-- Every type identifier a graph's encoding mentions. -/
def graphPaths (g : Graph) : List String :=
  graphPath :: (g.nodes.map Node.cls ++ (g.edges.map Edge.cls
    ++ (g.edges.map (fun e => e.node_a.cls) ++ g.edges.map (fun e => e.node_b.cls))))

/-- The resolution-failure message of the decode callback. -/
def resErrMsg (p : String) : String :=
  "The object `" ++ p ++ "` could not be found.\n"
    ++ "Fuzzy matching could also not find a replace that was similar enough."

/-- A one-object document whose type tag is an opaque key whose registry
entry records original identifier `p` and base category `b`. -/
def resDoc (p b : String) : Json :=
  .obj [("py/object", .str "EXTRACT_u"),
    ("REGISTRY", .obj [("EXTRACT_u", .obj [("path", .str p), ("base", .str b)])])]

/-- Round-trip fixture: a node whose class was renamed after saving, to be
restored through the override map. -/
def wRtN1 : Node :=
  { oid := 1, id := "n1", name := "alpha", «alias» := "a",
    node_type := some "task", cls := "old.models.Node" }

def wRtN2 : Node :=
  { oid := 2, id := "n2", name := "beta", «alias» := "b" }

def wRtE1 : Edge :=
  { name := "link", node_a := wRtN1, node_b := wRtN2 }

def wRtG : Graph :=
  { nodes := [wRtN1, wRtN2], edges := [wRtE1] }

def wRtOv : List (String × String) :=
  [("old.models.Node", "nodedb.base_models.Node")]

/-- Round-trip fixture environment: the shipped classes are loaded. -/
def wRtEnv : TypeEnv :=
  { importCls := fun _ => none, clsKind := fun _ => "",
    allClasses := ["nodedb.database.Graph", "nodedb.base_models.Node",
      "nodedb.base_models.Edge"],
    subclassesOf := fun _ => [], moduleClasses := fun _ => [],
    overrideOk := fun _ nw => ["nodedb.database.Graph", "nodedb.base_models.Node",
      "nodedb.base_models.Edge"].contains nw }

/-- Resolution fixture: no classes loaded, one override. -/
def wResEnv : TypeEnv :=
  { importCls := fun _ => none, clsKind := fun _ => "",
    allClasses := [], subclassesOf := fun _ => [], moduleClasses := fun _ => [],
    overrideOk := fun _ _ => true }

def wResOv : List (String × String) :=
  [("old.X", "new.X")]

end NodeDB

namespace NodeDB

/-- C4: after `remove_node n` on a graph where no other node shares `n`'s id,
`get_node_by_id n.id` is absent, `n` is gone from the node collection, no
remaining edge touches `n`, and the surviving nodes and edges are exactly the
untouched ones in their original relative order. -/
theorem remove_node_spec (g : Graph) (n : Node)
    (hid : ∀ m ∈ g.nodes, pyEq m n = false → m.id ≠ n.id) :
    get_node_by_id (remove_node g n) n.id = none
    ∧ (∀ m ∈ (remove_node g n).nodes, pyEq m n = false)
    ∧ (∀ e ∈ (remove_node g n).edges, pyEq e.node_a n = false ∧ pyEq e.node_b n = false)
    ∧ (remove_node g n).nodes.Sublist g.nodes
    ∧ (remove_node g n).edges.Sublist g.edges
    ∧ (∀ m ∈ g.nodes, pyEq m n = false → m ∈ (remove_node g n).nodes)
    ∧ (∀ e ∈ g.edges, pyEq e.node_a n = false → pyEq e.node_b n = false →
        e ∈ (remove_node g n).edges) := by
  refine ⟨?_, ?_, ?_, ?_, ?_, ?_, ?_⟩
  · rw [get_node_by_id, List.find?_eq_none]
    intro m hm
    simp only [remove_node, List.mem_filter, Bool.not_eq_true'] at hm
    have hne : m.id ≠ n.id := by
      apply hid m hm.1
      simpa using hm.2
    simpa using hne
  · intro m hm
    simp only [remove_node, List.mem_filter, Bool.not_eq_true'] at hm
    simpa using hm.2
  · intro e he
    simp only [remove_node, List.mem_filter, Bool.not_eq_true', Bool.and_eq_true,
      Bool.not_eq_true] at he
    exact he.2
  · exact List.filter_sublist _
  · exact List.filter_sublist _
  · intro m hm hne
    simp only [remove_node, List.mem_filter]
    exact ⟨hm, by simp [hne]⟩
  · intro e he ha hb
    simp only [remove_node, List.mem_filter]
    exact ⟨he, by simp [ha, hb]⟩

/-- Witness for `remove_node_spec`: a two-node, one-edge graph where the
removed node's id is unique. -/
theorem remove_node_spec_witness :
    get_node_by_id
      (remove_node
        { nodes := [{ oid := 1, id := "a" }, { oid := 2, id := "b" }],
          edges := [{ name := "e", node_a := { oid := 1, id := "a" },
                      node_b := { oid := 2, id := "b" } }] }
        { oid := 1, id := "a" }) "a" = none := by
  have h := remove_node_spec
    { nodes := [{ oid := 1, id := "a" }, { oid := 2, id := "b" }],
      edges := [{ name := "e", node_a := { oid := 1, id := "a" },
                  node_b := { oid := 2, id := "b" } }] }
    { oid := 1, id := "a" }
    (by decide)
  exact h.1

/-- C9: on an empty node collection neither `filter_nodes_by_field` nor
`sort_nodes_by` can raise the field-not-found error and both return the empty
list; in general each raises exactly when some node lacks the field. -/
theorem filter_sort_field_guard (g : Graph) (field : String) (value : Option String)
    (limit : Option Nat) (offset : Nat) :
    (g.nodes = [] →
      filter_nodes_by_field g field value = .ok []
      ∧ sort_nodes_by g field limit offset = .ok [])
    ∧ ((∃ e, filter_nodes_by_field g field value = .error e)
        ↔ ∃ n ∈ g.nodes, hasattrB n field = false)
    ∧ ((∃ e, sort_nodes_by g field limit offset = .error e)
        ↔ ∃ n ∈ g.nodes, hasattrB n field = false) := by
  refine ⟨?_, ?_, ?_⟩
  · intro hnil
    constructor
    · simp [filter_nodes_by_field, hnil]
    · simp [sort_nodes_by, hnil, sliceTo]
      cases limit.map (fun lim => offset + lim) <;> simp
  · constructor
    · rintro ⟨e, he⟩
      by_cases hall : g.nodes.all (fun n => hasattrB n field)
      · simp [filter_nodes_by_field, hall] at he
      · rw [List.all_eq_true] at hall
        push_neg at hall
        obtain ⟨n, hn, hfa⟩ := hall
        exact ⟨n, hn, by simpa using hfa⟩
    · rintro ⟨n, hn, hfa⟩
      have hall : g.nodes.all (fun n => hasattrB n field) = false := by
        rw [List.all_eq_false]
        exact ⟨n, hn, by simp [hfa]⟩
      exact ⟨"Field '" ++ field ++ "' not found in Node",
        by simp [filter_nodes_by_field, hall]⟩
  · constructor
    · rintro ⟨e, he⟩
      by_cases hall : g.nodes.all (fun n => hasattrB n field)
      · simp [sort_nodes_by, hall] at he
      · rw [List.all_eq_true] at hall
        push_neg at hall
        obtain ⟨n, hn, hfa⟩ := hall
        exact ⟨n, hn, by simpa using hfa⟩
    · rintro ⟨n, hn, hfa⟩
      have hall : g.nodes.all (fun n => hasattrB n field) = false := by
        rw [List.all_eq_false]
        exact ⟨n, hn, by simp [hfa]⟩
      exact ⟨"Field '" ++ field ++ "' not found in Node",
        by simp [sort_nodes_by, hall]⟩

/-- Witness for `filter_sort_field_guard`: the empty graph never raises, for
an arbitrary field name. -/
theorem filter_sort_field_guard_witness :
    filter_nodes_by_field { nodes := [], edges := [] } "no_such_field" none = .ok []
    ∧ sort_nodes_by { nodes := [], edges := [] } "no_such_field" none 0 = .ok [] :=
  (filter_sort_field_guard { nodes := [], edges := [] } "no_such_field" none none 0).1 rfl

theorem similarity_nonneg (a b : String) : 0 ≤ similarity a b := by
  simp only [similarity]
  split
  · norm_num
  · apply div_nonneg <;> positivity

/-- The fuzzy fold either keeps its initial accumulator (when nothing beats
it) or returns the first node attaining the overall maximum similarity. -/
theorem bf_fold_spec (q : String) (key : Node → String) :
    ∀ (l : List Node) (b0 : Option Node) (h0 : Rat),
      (l.foldl (bfStep q key) (b0, h0) = (b0, h0)
        ∧ ∀ x ∈ l, similarity q (key x) ≤ h0)
      ∨ (∃ l1 m l2, l = l1 ++ m :: l2
          ∧ l.foldl (bfStep q key) (b0, h0) = (some m, similarity q (key m))
          ∧ h0 < similarity q (key m)
          ∧ (∀ x ∈ l1, similarity q (key x) < similarity q (key m))
          ∧ (∀ x ∈ l2, similarity q (key x) ≤ similarity q (key m))) := by
  intro l
  induction l with
  | nil => intro b0 h0; left; exact ⟨rfl, by simp⟩
  | cons n xs ih =>
    intro b0 h0
    simp only [List.foldl_cons]
    by_cases hs : h0 < similarity q (key n)
    · rw [show bfStep q key (b0, h0) n = (some n, similarity q (key n)) by
        simp [bfStep, hs]]
      rcases ih (some n) (similarity q (key n)) with ⟨heq, hall⟩ | ⟨l1, m, l2, hdec, heq, hlt, h1, h2⟩
      · right
        exact ⟨[], n, xs, by simp, heq, hs, by simp, hall⟩
      · right
        refine ⟨n :: l1, m, l2, by simp [hdec], heq, lt_trans hs hlt, ?_, h2⟩
        intro x hx
        rcases List.mem_cons.1 hx with rfl | hx
        · exact hlt
        · exact h1 x hx
    · rw [show bfStep q key (b0, h0) n = (b0, h0) by simp [bfStep, hs]]
      rcases ih b0 h0 with ⟨heq, hall⟩ | ⟨l1, m, l2, hdec, heq, hlt, h1, h2⟩
      · left
        refine ⟨heq, ?_⟩
        intro x hx
        rcases List.mem_cons.1 hx with rfl | hx
        · exact not_lt.1 hs
        · exact hall x hx
      · right
        refine ⟨n :: l1, m, l2, by simp [hdec], heq, hlt, ?_, h2⟩
        intro x hx
        rcases List.mem_cons.1 hx with rfl | hx
        · exact lt_of_le_of_lt (not_lt.1 hs) hlt
        · exact h1 x hx

theorem maxfold_ge_init (q : String) (key : Node → String) :
    ∀ (l : List Node) (h0 : Rat),
      h0 ≤ l.foldl (fun acc n => max acc (similarity q (key n))) h0 := by
  intro l
  induction l with
  | nil => intro h0; simp
  | cons n xs ih =>
    intro h0
    simp only [List.foldl_cons]
    exact le_trans (le_max_left _ _) (ih _)

theorem maxfold_ge_mem (q : String) (key : Node → String) :
    ∀ (l : List Node) (h0 : Rat), ∀ x ∈ l,
      similarity q (key x) ≤ l.foldl (fun acc n => max acc (similarity q (key n))) h0 := by
  intro l
  induction l with
  | nil => intro h0 x hx; simp at hx
  | cons n xs ih =>
    intro h0 x hx
    simp only [List.foldl_cons]
    rcases List.mem_cons.1 hx with rfl | hx
    · exact le_trans (le_max_right _ _) (maxfold_ge_init q key xs _)
    · exact ih _ x hx

theorem maxfold_le (q : String) (key : Node → String) :
    ∀ (l : List Node) (h0 c : Rat), h0 ≤ c → (∀ x ∈ l, similarity q (key x) ≤ c) →
      l.foldl (fun acc n => max acc (similarity q (key n))) h0 ≤ c := by
  intro l
  induction l with
  | nil => intro h0 c h _; simpa using h
  | cons n xs ih =>
    intro h0 c h hall
    simp only [List.foldl_cons]
    refine ih _ c (max_le h (hall n (by simp))) ?_
    intro x hx
    exact hall x (by simp [hx])

theorem bf_snd_eq_maxSim (q : String) (key : Node → String) (l : List Node) :
    (bestFuzzy q key l).2 = maxSim q key l := by
  apply le_antisymm
  · rcases bf_fold_spec q key l none 0 with ⟨heq, hall⟩ | ⟨l1, m, l2, hdec, heq, hlt, h1, h2⟩
    · rw [bestFuzzy, heq]
      exact maxfold_ge_init q key l 0
    · rw [bestFuzzy, heq]
      exact maxfold_ge_mem q key l 0 m (by rw [hdec]; simp)
  · rcases bf_fold_spec q key l none 0 with ⟨heq, hall⟩ | ⟨l1, m, l2, hdec, heq, hlt, h1, h2⟩
    · rw [bestFuzzy, heq]
      exact maxfold_le q key l 0 0 le_rfl hall
    · rw [bestFuzzy, heq]
      refine maxfold_le q key l 0 _ (le_of_lt hlt) ?_
      intro x hx
      rw [hdec] at hx
      rcases List.mem_append.1 hx with hx | hx
      · exact le_of_lt (h1 x hx)
      · rcases List.mem_cons.1 hx with rfl | hx
        · exact le_rfl
        · exact h2 x hx

/-- Behaviour of the cutoff gate shared by the fuzzy matchers: for a positive
cutoff, the gated result is absent exactly when the maximal similarity is
below the cutoff, and any returned node is a member attaining that maximum. -/
theorem gate_spec (q : String) (key : Node → String) (l : List Node) (c : Rat)
    (hc : 0 < c) :
    ((if c ≤ (bestFuzzy q key l).2 then (bestFuzzy q key l).1 else none) = none
      ↔ maxSim q key l < c)
    ∧ ∀ m, (if c ≤ (bestFuzzy q key l).2 then (bestFuzzy q key l).1 else none) = some m →
        m ∈ l ∧ similarity q (key m) = maxSim q key l := by
  have hsnd := bf_snd_eq_maxSim q key l
  by_cases hge : c ≤ (bestFuzzy q key l).2
  · rcases bf_fold_spec q key l none 0 with ⟨heq, hall⟩ | ⟨l1, m, l2, hdec, heq, hlt, h1, h2⟩
    · exfalso
      have : (bestFuzzy q key l).2 = 0 := by rw [bestFuzzy, heq]
      rw [this] at hge
      exact absurd (lt_of_lt_of_le hc hge) (lt_irrefl 0)
    · have hfst : (bestFuzzy q key l).1 = some m := by rw [bestFuzzy, heq]
      constructor
      · simp only [if_pos hge, hfst]
        constructor
        · intro h; exact absurd h (by simp)
        · intro h
          rw [← hsnd] at h
          exact absurd hge (not_le.2 h)
      · intro m' hm'
        simp only [if_pos hge, hfst, Option.some.injEq] at hm'
        subst hm'
        refine ⟨by rw [hdec]; simp, ?_⟩
        rw [← hsnd, bestFuzzy, heq]
  · constructor
    · simp only [if_neg hge]
      simp only [true_iff]
      rw [← hsnd]
      exact not_le.1 hge
    · intro m hm
      simp only [if_neg hge] at hm
      exact absurd hm (by simp)

/-- Python's `min` fold either keeps its initial element (already minimal) or
returns the first strictly smaller element attaining the minimum. -/
theorem pymin_fold_spec :
    ∀ (l : List Node) (p : Node),
      (l.foldl pyMinStep p = p ∧ ∀ x ∈ l, p.id.length ≤ x.id.length)
      ∨ (∃ l1 m l2, l = l1 ++ m :: l2
          ∧ l.foldl pyMinStep p = m
          ∧ m.id.length < p.id.length
          ∧ (∀ x ∈ l1, m.id.length < x.id.length)
          ∧ (∀ x ∈ l2, m.id.length ≤ x.id.length)) := by
  intro l
  induction l with
  | nil => intro p; left; exact ⟨rfl, by simp⟩
  | cons n xs ih =>
    intro p
    simp only [List.foldl_cons]
    by_cases hs : n.id.length < p.id.length
    · rw [show pyMinStep p n = n by simp [pyMinStep, hs]]
      rcases ih n with ⟨heq, hall⟩ | ⟨l1, m, l2, hdec, heq, hlt, h1, h2⟩
      · right
        exact ⟨[], n, xs, by simp, heq, hs, by simp, hall⟩
      · right
        refine ⟨n :: l1, m, l2, by simp [hdec], heq, lt_trans hlt hs, ?_, h2⟩
        intro x hx
        rcases List.mem_cons.1 hx with rfl | hx
        · exact hlt
        · exact h1 x hx
    · rw [show pyMinStep p n = p by simp [pyMinStep, hs]]
      rcases ih p with ⟨heq, hall⟩ | ⟨l1, m, l2, hdec, heq, hlt, h1, h2⟩
      · left
        refine ⟨heq, ?_⟩
        intro x hx
        rcases List.mem_cons.1 hx with rfl | hx
        · exact not_lt.1 hs
        · exact hall x hx
      · right
        refine ⟨n :: l1, m, l2, by simp [hdec], heq, hlt, ?_, h2⟩
        intro x hx
        rcases List.mem_cons.1 hx with rfl | hx
        · exact lt_of_lt_of_le hlt (not_lt.1 hs)
        · exact h1 x hx

theorem gcnaGo_inl_alias (q : String) :
    ∀ (l acc : List Node) (m : Node), gcnaGo q l acc = .inl m → m.«alias» = q := by
  intro l
  induction l with
  | nil => intro acc m h; simp [gcnaGo] at h
  | cons n rest ih =>
    intro acc m h
    rw [gcnaGo] at h
    by_cases he : q == n.«alias»
    · simp only [if_pos he, Sum.inl.injEq] at h
      subst h
      exact (beq_iff_eq.1 he).symm
    · simp only [if_neg he] at h
      exact ih _ m h

theorem gcnaGo_exact (q : String) :
    ∀ (l acc : List Node), (∃ n ∈ l, n.«alias» = q) →
      ∃ m, gcnaGo q l acc = .inl m := by
  intro l
  induction l with
  | nil => intro acc h; simp at h
  | cons n rest ih =>
    intro acc ⟨x, hx, hxa⟩
    rw [gcnaGo]
    by_cases he : q == n.«alias»
    · exact ⟨n, by simp [he]⟩
    · simp only [if_neg he]
      rcases List.mem_cons.1 hx with rfl | hx
      · exact absurd (beq_iff_eq.2 hxa.symm) he
      · exact ih _ ⟨x, hx, hxa⟩

theorem gcnaGo_noexact (q : String) :
    ∀ (l acc : List Node), (∀ n ∈ l, n.«alias» ≠ q) →
      ∃ out, gcnaGo q l acc = .inr out := by
  intro l
  induction l with
  | nil => intro acc _; exact ⟨acc, rfl⟩
  | cons n rest ih =>
    intro acc hno
    rw [gcnaGo]
    have he : ¬(q == n.«alias») := by
      intro h
      exact hno n (by simp) (beq_iff_eq.1 h).symm
    simp only [if_neg he]
    exact ih _ (fun x hx => hno x (by simp [hx]))

/-- C5 (amended): for every positive cutoff, the fuzzy alias and name
matchers return a node whose alias (resp. name) equals the query whenever
such a node exists, regardless of the cutoff; otherwise the result is absent
exactly when the maximal similarity is below the cutoff, and any returned
node is a member attaining that maximum. (Positivity of the cutoff is the
amendment: the scan only records a candidate on a strictly positive
similarity, so at cutoff `0` a best similarity of `0` yields no node.) -/
theorem match_closest_alias_name_spec (g : Graph) (q : String) (c : Rat) (hc : 0 < c) :
    ((∃ n ∈ g.nodes, n.«alias» = q) →
      ∃ m, match_closest_node_alias g q c = some m ∧ m.«alias» = q)
    ∧ ((∀ n ∈ g.nodes, n.«alias» ≠ q) →
        (match_closest_node_alias g q c = none
          ↔ maxSim q (fun n => n.«alias») g.nodes < c)
        ∧ ∀ m, match_closest_node_alias g q c = some m →
            m ∈ g.nodes ∧ similarity q m.«alias» = maxSim q (fun n => n.«alias») g.nodes)
    ∧ ((∃ n ∈ g.nodes, n.name = q) →
      ∃ m, match_closest_node_name g q c = some m ∧ m.name = q)
    ∧ ((∀ n ∈ g.nodes, n.name ≠ q) →
        (match_closest_node_name g q c = none
          ↔ maxSim q (fun n => n.name) g.nodes < c)
        ∧ ∀ m, match_closest_node_name g q c = some m →
            m ∈ g.nodes ∧ similarity q m.name = maxSim q (fun n => n.name) g.nodes) := by
  refine ⟨?_, ?_, ?_, ?_⟩
  · intro hex
    obtain ⟨m, hgo⟩ := gcnaGo_exact q g.nodes [] hex
    have hal := gcnaGo_inl_alias q g.nodes [] m hgo
    refine ⟨m, ?_, hal⟩
    simp [match_closest_node_alias, get_closest_nodes_alias, hgo, hal]
  · intro hno
    obtain ⟨out, hgo⟩ := gcnaGo_noexact q g.nodes [] hno
    have hred : match_closest_node_alias g q c
        = (if c ≤ (bestFuzzy q (fun n => n.«alias») g.nodes).2
            then (bestFuzzy q (fun n => n.«alias») g.nodes).1 else none) := by
      simp [match_closest_node_alias, get_closest_nodes_alias, hgo]
    rw [hred]
    exact gate_spec q (fun n => n.«alias») g.nodes c hc
  · intro hex
    cases hfind : g.nodes.find? (fun n => q == n.name) with
    | some m =>
      refine ⟨m, ?_, ?_⟩
      · simp [match_closest_node_name, hfind]
      · have hp := List.find?_some hfind
        exact (beq_iff_eq.1 hp).symm
    | none =>
      exfalso
      obtain ⟨x, hx, hxn⟩ := hex
      have := List.find?_eq_none.1 hfind x hx
      exact this (beq_iff_eq.2 hxn.symm)
  · intro hno
    have hfind : g.nodes.find? (fun n => q == n.name) = none := by
      rw [List.find?_eq_none]
      intro x hx h
      exact hno x hx (beq_iff_eq.1 h).symm
    have hred : match_closest_node_name g q c
        = (if c ≤ (bestFuzzy q (fun n => n.name) g.nodes).2
            then (bestFuzzy q (fun n => n.name) g.nodes).1 else none) := by
      simp [match_closest_node_name, hfind]
    rw [hred]
    exact gate_spec q (fun n => n.name) g.nodes c hc

/-- Witness for `match_closest_alias_name_spec`: a single-node graph with an
exact alias hit, at cutoff `1/2`. -/
theorem match_closest_alias_name_spec_witness :
    (0 : Rat) < 1/2
    ∧ ∃ m, match_closest_node_alias wAlG "al" (1/2) = some m ∧ m.«alias» = "al" :=
  ⟨by norm_num,
    (match_closest_alias_name_spec wAlG "al" (1/2) (by norm_num)).1
      ⟨wAl, by simp [wAlG], rfl⟩⟩

/-- C5 as literally stated fails at cutoff `0`: no exact alias match exists,
the best similarity (here `0`) meets the cutoff, the graph is nonempty, and
yet the matcher returns absent rather than the maximal-similarity node. -/
theorem match_closest_alias_cutoff_zero_cex :
    (∀ n ∈ cexGraph.nodes, n.«alias» ≠ "a")
    ∧ (0 : Rat) ≤ maxSim "a" (fun n => n.«alias») cexGraph.nodes
    ∧ cexGraph.nodes ≠ []
    ∧ match_closest_node_alias cexGraph "a" 0 = none := by
  have hs : similarity "a" "b" = 0 := by
    have h1 : totalMatches ("a".toList.length + "b".toList.length + 1)
        "a".toList "b".toList = 0 := by decide
    simp only [similarity]
    rw [h1]
    norm_num
  refine ⟨by decide, ?_, by simp [cexGraph], ?_⟩
  · simp only [maxSim, cexGraph, List.foldl_cons, List.foldl_nil]
    exact le_max_left _ _
  · have hg : get_closest_nodes_alias cexGraph "a" = .inr [] := by decide
    have hbf : bestFuzzy "a" (fun n => n.«alias») cexGraph.nodes = (none, 0) := by
      simp only [bestFuzzy, cexGraph, List.foldl_cons, List.foldl_nil, bfStep]
      rw [show cexNode.«alias» = "b" from rfl, hs]
      norm_num
    have hred : match_closest_node_alias cexGraph "a" 0
        = (if (0 : Rat) ≤ (bestFuzzy "a" (fun n => n.«alias») cexGraph.nodes).2
            then (bestFuzzy "a" (fun n => n.«alias») cexGraph.nodes).1 else none) := by
      simp [match_closest_node_alias, hg]
    rw [hred, hbf]
    rw [if_pos le_rfl]

/-- C10: when no exact match exists, any node returned by the fuzzy name or
alias matcher is the earliest maximizer of the similarity: every node before
it is strictly less similar and every node after it is at most as similar
(in particular ties at the maximum go to the earliest node, since a later
node replaces the current best only on a strictly greater similarity). -/
theorem fuzzy_tie_earliest (g : Graph) (q : String) (c : Rat) :
    ((∀ n ∈ g.nodes, n.name ≠ q) →
      ∀ m, match_closest_node_name g q c = some m →
        ∃ l1 l2, g.nodes = l1 ++ m :: l2
          ∧ (∀ x ∈ l1, similarity q x.name < similarity q m.name)
          ∧ (∀ x ∈ l2, similarity q x.name ≤ similarity q m.name))
    ∧ ((∀ n ∈ g.nodes, n.«alias» ≠ q) →
      ∀ m, match_closest_node_alias g q c = some m →
        ∃ l1 l2, g.nodes = l1 ++ m :: l2
          ∧ (∀ x ∈ l1, similarity q x.«alias» < similarity q m.«alias»)
          ∧ (∀ x ∈ l2, similarity q x.«alias» ≤ similarity q m.«alias»)) := by
  constructor
  · intro hno m hm
    have hfind : g.nodes.find? (fun n => q == n.name) = none := by
      rw [List.find?_eq_none]
      intro x hx h
      exact hno x hx (beq_iff_eq.1 h).symm
    have hred : match_closest_node_name g q c
        = (if c ≤ (bestFuzzy q (fun n => n.name) g.nodes).2
            then (bestFuzzy q (fun n => n.name) g.nodes).1 else none) := by
      simp [match_closest_node_name, hfind]
    rw [hred] at hm
    by_cases hge : c ≤ (bestFuzzy q (fun n => n.name) g.nodes).2
    · rw [if_pos hge] at hm
      rcases bf_fold_spec q (fun n => n.name) g.nodes none 0 with ⟨heq, _⟩ |
        ⟨l1, m', l2, hdec, heq, _, h1, h2⟩
      · exfalso
        have : (bestFuzzy q (fun n => n.name) g.nodes).1 = none := by rw [bestFuzzy, heq]
        rw [this] at hm
        exact absurd hm (by simp)
      · have : (bestFuzzy q (fun n => n.name) g.nodes).1 = some m' := by rw [bestFuzzy, heq]
        rw [this, Option.some.injEq] at hm
        subst hm
        exact ⟨l1, l2, hdec, h1, h2⟩
    · rw [if_neg hge] at hm
      exact absurd hm (by simp)
  · intro hno m hm
    obtain ⟨out, hgo⟩ := gcnaGo_noexact q g.nodes [] hno
    have hred : match_closest_node_alias g q c
        = (if c ≤ (bestFuzzy q (fun n => n.«alias») g.nodes).2
            then (bestFuzzy q (fun n => n.«alias») g.nodes).1 else none) := by
      simp [match_closest_node_alias, get_closest_nodes_alias, hgo]
    rw [hred] at hm
    by_cases hge : c ≤ (bestFuzzy q (fun n => n.«alias») g.nodes).2
    · rw [if_pos hge] at hm
      rcases bf_fold_spec q (fun n => n.«alias») g.nodes none 0 with ⟨heq, _⟩ |
        ⟨l1, m', l2, hdec, heq, _, h1, h2⟩
      · exfalso
        have : (bestFuzzy q (fun n => n.«alias») g.nodes).1 = none := by rw [bestFuzzy, heq]
        rw [this] at hm
        exact absurd hm (by simp)
      · have : (bestFuzzy q (fun n => n.«alias») g.nodes).1 = some m' := by rw [bestFuzzy, heq]
        rw [this, Option.some.injEq] at hm
        subst hm
        exact ⟨l1, l2, hdec, h1, h2⟩
    · rw [if_neg hge] at hm
      exact absurd hm (by simp)

/-- Witness for `fuzzy_tie_earliest`: two nodes tie on similarity to a
non-matching query; the matcher returns the first, and the decomposition
places it before the equally similar later node. -/
theorem fuzzy_tie_earliest_witness :
    ∃ l1 l2, wG.nodes = l1 ++ wN1 :: l2
      ∧ (∀ x ∈ l1, similarity "abcz" x.name < similarity "abcz" wN1.name)
      ∧ (∀ x ∈ l2, similarity "abcz" x.name ≤ similarity "abcz" wN1.name) := by
  have hx : similarity "abcz" "abcx" = 3/4 := by
    have h1 : totalMatches ("abcz".toList.length + "abcx".toList.length + 1)
        "abcz".toList "abcx".toList = 3 := by decide
    have h2 : "abcz".toList.length + "abcx".toList.length = 8 := by decide
    simp only [similarity]
    rw [h1, h2]
    norm_num
  have hy : similarity "abcz" "abcy" = 3/4 := by
    have h1 : totalMatches ("abcz".toList.length + "abcy".toList.length + 1)
        "abcz".toList "abcy".toList = 3 := by decide
    have h2 : "abcz".toList.length + "abcy".toList.length = 8 := by decide
    simp only [similarity]
    rw [h1, h2]
    norm_num
  have hfind : wG.nodes.find? (fun n => "abcz" == n.name) = none := by decide
  have hbf : bestFuzzy "abcz" (fun n => n.name) wG.nodes = (some wN1, 3/4) := by
    simp only [bestFuzzy, wG, List.foldl_cons, List.foldl_nil, bfStep]
    rw [show wN1.name = "abcx" from rfl, show wN2.name = "abcy" from rfl, hx, hy]
    norm_num
  have hm : match_closest_node_name wG "abcz" (7/10) = some wN1 := by
    have hred : match_closest_node_name wG "abcz" (7/10)
        = (if (7/10 : Rat) ≤ (bestFuzzy "abcz" (fun n => n.name) wG.nodes).2
            then (bestFuzzy "abcz" (fun n => n.name) wG.nodes).1 else none) := by
      simp [match_closest_node_name, hfind]
    rw [hred, hbf]
    norm_num
  exact (fuzzy_tie_earliest wG "abcz" (7/10)).1 (by decide) wN1 hm

/-- C7: at the default cutoff `0.7`, `match_closest_node_id` returns a node
with exactly the queried id when one exists; otherwise, when some id has the
query as a literal prefix, it returns a prefix-matching node of minimal id
length, the earliest such on a length tie; otherwise it behaves like the
fuzzy matchers: absent exactly when the best similarity is below the cutoff,
else a member attaining the maximum. -/
theorem match_closest_id_spec (g : Graph) (q : String) :
    ((∃ n ∈ g.nodes, n.id = q) →
      ∃ m, match_closest_node_id g q (7/10) = some m ∧ m.id = q)
    ∧ ((∀ n ∈ g.nodes, n.id ≠ q) →
        ∀ p rest, prefixMatches g q = p :: rest →
          ∃ m, match_closest_node_id g q (7/10) = some m
            ∧ startsB q.toList m.id.toList = true
            ∧ (∀ x ∈ p :: rest, m.id.length ≤ x.id.length)
            ∧ ∃ l1 l2, p :: rest = l1 ++ m :: l2
                ∧ ∀ x ∈ l1, m.id.length < x.id.length)
    ∧ ((∀ n ∈ g.nodes, n.id ≠ q) →
        prefixMatches g q = [] →
        (match_closest_node_id g q (7/10) = none
          ↔ maxSim q (fun n => n.id) g.nodes < 7/10)
        ∧ ∀ m, match_closest_node_id g q (7/10) = some m →
            m ∈ g.nodes ∧ similarity q m.id = maxSim q (fun n => n.id) g.nodes) := by
  refine ⟨?_, ?_, ?_⟩
  · intro hex
    cases hfind : g.nodes.find? (fun n => n.id == q) with
    | some m =>
      refine ⟨m, ?_, ?_⟩
      · simp [match_closest_node_id, hfind]
      · have hp := List.find?_some hfind
        exact beq_iff_eq.1 hp
    | none =>
      exfalso
      obtain ⟨x, hx, hxn⟩ := hex
      exact List.find?_eq_none.1 hfind x hx (beq_iff_eq.2 hxn)
  · intro hno p rest hfilter
    have hfind : g.nodes.find? (fun n => n.id == q) = none := by
      rw [List.find?_eq_none]
      intro x hx h
      exact hno x hx (beq_iff_eq.1 h)
    have hres : match_closest_node_id g q (7/10) = some (pyMinByIdLen p rest) := by
      simp [match_closest_node_id, hfind, hfilter]
    have hmem : ∀ x ∈ p :: rest, startsB q.toList x.id.toList = true := by
      intro x hx
      rw [← hfilter] at hx
      simp only [prefixMatches] at hx
      exact (List.mem_filter.1 hx).2
    rcases pymin_fold_spec rest p with ⟨heq, hall⟩ | ⟨l1, m', l2, hdec, heq, hlt, h1, h2⟩
    · refine ⟨p, by rw [hres]; simp only [pyMinByIdLen]; rw [heq],
        hmem p (by simp), ?_, [], rest, ?_, by simp⟩
      · intro x hx
        rcases List.mem_cons.1 hx with rfl | hx
        · exact le_rfl
        · exact hall x hx
      · simp
    · refine ⟨m', by rw [hres]; simp only [pyMinByIdLen]; rw [heq], ?_, ?_, p :: l1, l2, ?_, ?_⟩
      · exact hmem m' (by rw [hdec]; simp)
      · intro x hx
        rcases List.mem_cons.1 hx with rfl | hx
        · exact le_of_lt hlt
        · rw [hdec] at hx
          rcases List.mem_append.1 hx with hx | hx
          · exact le_of_lt (h1 x hx)
          · rcases List.mem_cons.1 hx with rfl | hx
            · exact le_rfl
            · exact h2 x hx
      · rw [hdec]
        simp
      · intro x hx
        rcases List.mem_cons.1 hx with rfl | hx
        · exact hlt
        · exact h1 x hx
  · intro hno hfilter
    have hfind : g.nodes.find? (fun n => n.id == q) = none := by
      rw [List.find?_eq_none]
      intro x hx h
      exact hno x hx (beq_iff_eq.1 h)
    have hred : match_closest_node_id g q (7/10)
        = (if (7/10 : Rat) ≤ (bestFuzzy q (fun n => n.id) g.nodes).2
            then (bestFuzzy q (fun n => n.id) g.nodes).1 else none) := by
      simp [match_closest_node_id, hfind, hfilter]
    rw [hred]
    exact gate_spec q (fun n => n.id) g.nodes (7/10) (by norm_num)

/-- Witness for `match_closest_id_spec`: an exact id hit. -/
theorem match_closest_id_spec_witness :
    ∃ m, match_closest_node_id wXyzG "xyz" (7/10) = some m ∧ m.id = "xyz" :=
  (match_closest_id_spec wXyzG "xyz").1 ⟨wXyz, by simp [wXyzG], rfl⟩

theorem except_ok_bind {α β : Type} (x : α) (f : α → Except String β) :
    (Except.ok x >>= f) = f x :=
  rfl

/-- C2 as stated is false: `&&` lexes as two consecutive `AND` tokens (the
token table only has the single-character `&`), so both example queries
raise a syntax error instead of parsing to the claimed ASTs. -/
theorem query_and_parse_cex :
    (do
      let t ← smart_tokenize "a=1 && b=2"
      parse_expr t)
      = Except.error "Unexpected token '&' at position 4 — expected field or '('"
    ∧ (do
      let t ← smart_tokenize "a=1 || b=2 && c=3"
      parse_expr t)
      = Except.error "Unexpected token '&' at position 8 — expected field or '('" := by
  exact ⟨by decide, by decide⟩

/-- C2 (amended): with the single-ampersand AND operator of the token table,
`"a=1 & b=2"` parses to `AND(MATCH(a,'=','1'), MATCH(b,'=','2'))` and
`"a=1 || b=2 & c=3"` parses with AND binding tighter than OR, to
`OR(MATCH(a,..), AND(MATCH(b,..), MATCH(c,..)))`, consuming all tokens. -/
theorem query_parse_amended :
    (do
      let t ← smart_tokenize "a=1 & b=2"
      parse_expr t)
      = Except.ok (.AND (.MATCH "a" "=" "1") (.MATCH "b" "=" "2"), 7)
    ∧ (do
      let t ← smart_tokenize "a=1 || b=2 & c=3"
      parse_expr t)
      = Except.ok
          (.OR (.MATCH "a" "=" "1") (.AND (.MATCH "b" "=" "2") (.MATCH "c" "=" "3")), 11)
    ∧ smart_tokenize "a=1 & b=2"
      = Except.ok [(.IDENT, "a"), (.EQ, "="), (.LITERAL, "1"), (.AND, "&"),
          (.IDENT, "b"), (.EQ, "="), (.LITERAL, "2")] := by
  exact ⟨by decide, by decide, by decide⟩

/-- C8: the unmatched opening parenthesis of `"(a=1"` raises the unclosed
parenthesis syntax error, and whenever the parse of a query's tokens stops
before consuming them all, `find_nodes_by_query` raises the trailing-tokens
syntax error (shown with the concrete instance `"a=1) x"`). -/
theorem query_syntax_errors :
    ((do
      let t ← smart_tokenize "(a=1"
      parse_expr t)
      = Except.error "Unclosed parenthesis. Expected ')' before end of input")
    ∧ (∀ (search : String → String → Except String Bool) (g : Graph) (q : String)
        (toks : List (TokKind × String)) (ast : Ast) (i : Nat),
        smart_tokenize q = .ok toks → parse_expr toks = .ok (ast, i) → i ≠ toks.length →
        find_nodes_by_query search g q
          = .error ("Unexpected trailing tokens: "
              ++ String.join ((toks.drop i).map (fun t => t.2)))) := by
  refine ⟨by decide, ?_⟩
  intro search g q toks ast i htok hparse hne
  simp only [find_nodes_by_query, htok, hparse, except_ok_bind]
  rw [if_pos hne]

/-- Witness for `query_syntax_errors`: the concrete query `"a=1) x"` whose
parse stops at index 3 of 5 tokens. -/
theorem query_syntax_errors_witness :
    find_nodes_by_query subSearch wAlG "a=1) x"
      = .error ("Unexpected trailing tokens: "
          ++ String.join (([((TokKind.RPAREN), ")"), ((TokKind.IDENT), "x")] :
              List (TokKind × String)).map (fun t => t.2))) := by
  have h := query_syntax_errors.2 subSearch wAlG "a=1) x"
    [(.IDENT, "a"), (.EQ, "="), (.LITERAL, "1"), (.RPAREN, ")"), (.IDENT, "x")]
    (.MATCH "a" "=" "1") 3 (by decide) (by decide) (by decide)
  exact h

theorem startsB_refl_append : ∀ (l r : List Char), startsB l (l ++ r) = true := by
  intro l
  induction l with
  | nil => intro r; rfl
  | cons c cs ih =>
    intro r
    simp [startsB, ih]

theorem containsB_of_startsB {needle hay : List Char} (h : startsB needle hay = true) :
    containsB needle hay = true := by
  cases hay with
  | nil => simpa [containsB] using h
  | cons c rest => simp [containsB, h]

theorem containsB_cons {needle hay : List Char} (c : Char)
    (h : containsB needle hay = true) : containsB needle (c :: hay) = true := by
  simp [containsB, h]

theorem containsB_append_left {needle hay : List Char} :
    ∀ pre, containsB needle hay = true → containsB needle (pre ++ hay) = true := by
  intro pre
  induction pre with
  | nil => intro h; simpa using h
  | cons c cs ih =>
    intro h
    simpa using containsB_cons c (ih h)

/-- C6: a `MATCH` atom evaluates to false when the field does not resolve on
the node (even under `!=`); on a resolved value, `=` returns exactly what
the unanchored search reports and `!=` its negation; and a pattern the
engine rejects raises an invalid-regex error whose message contains both
the pattern and the engine's error text. -/
theorem evaluate_match_spec (search : String → String → Except String Bool)
    (n : Node) (field op pattern : String) :
    (pyattr n field = none →
      evaluate_ast search (.MATCH field op pattern) n = .ok false)
    ∧ (∀ v b, pyattr n field = some v → search pattern v = .ok b →
        evaluate_ast search (.MATCH field "=" pattern) n = .ok b
        ∧ evaluate_ast search (.MATCH field "!=" pattern) n = .ok (!b))
    ∧ (∀ v e, pyattr n field = some v → search pattern v = .error e →
        (op = "=" ∨ op = "!=") →
        ∃ msg, evaluate_ast search (.MATCH field op pattern) n = .error msg
          ∧ containsB pattern.toList msg.toList = true
          ∧ containsB e.toList msg.toList = true) := by
  refine ⟨?_, ?_, ?_⟩
  · intro hattr
    simp [evaluate_ast, hattr]
  · intro v b hattr hsearch
    constructor
    · simp [evaluate_ast, hattr, hsearch]
    · simp [evaluate_ast, hattr, hsearch]
  · intro v e hattr hsearch hop
    refine ⟨"Invalid regex: '" ++ pattern ++ "' (" ++ e ++ ")", ?_, ?_, ?_⟩
    · rcases hop with rfl | rfl
      · simp [evaluate_ast, hattr, hsearch]
      · simp [evaluate_ast, hattr, hsearch]
    · have : ("Invalid regex: '" ++ pattern ++ "' (" ++ e ++ ")").toList
          = "Invalid regex: '".toList ++ (pattern.toList ++ ("' (" ++ e ++ ")").toList) := by
        simp [String.toList]
      rw [this]
      exact containsB_append_left _
        (containsB_of_startsB (startsB_refl_append _ _))
    · have : ("Invalid regex: '" ++ pattern ++ "' (" ++ e ++ ")").toList
          = ("Invalid regex: '".toList ++ pattern.toList ++ "' (".toList)
            ++ (e.toList ++ ")".toList) := by
        simp [String.toList]
      rw [this]
      exact containsB_append_left _
        (containsB_of_startsB (startsB_refl_append _ _))

/-- Witness for `evaluate_match_spec`: an unresolvable field gives false,
and the `[` pattern rejected by the stand-in engine raises a message
containing both the pattern and the engine's error text. -/
theorem evaluate_match_spec_witness :
    evaluate_ast brokenSearch (.MATCH "no_field" "=" "x") wAl = .ok false
    ∧ ∃ msg, evaluate_ast brokenSearch (.MATCH "name" "=" "[") wAl = .error msg
        ∧ containsB "[".toList msg.toList = true
        ∧ containsB "unterminated character set at position 0".toList msg.toList = true :=
  ⟨(evaluate_match_spec brokenSearch wAl "no_field" "=" "x").1 rfl,
    (evaluate_match_spec brokenSearch wAl "name" "=" "[").2.2 "Alpha"
      "unterminated character set at position 0" rfl rfl (Or.inl rfl)⟩

theorem lookupReg_append {l : List (String × String × String)} {u : String}
    {v : String × String} (l2 : List (String × String × String))
    (h : lookupReg l u = some v) : lookupReg (l ++ l2) u = some v := by
  induction l with
  | nil => simp [lookupReg] at h
  | cons e rest ih =>
    obtain ⟨e1, e2, e3⟩ := e
    rw [lookupReg] at h
    by_cases he : e1 == u
    · rw [if_pos he] at h
      simp only [List.cons_append, lookupReg, if_pos he]
      exact h
    · rw [if_neg he] at h
      simp only [List.cons_append, lookupReg, if_neg he]
      exact ih h

theorem lookupReg_append_fresh {l : List (String × String × String)} {u : String}
    (p b : String) (h : lookupReg l u = none) :
    lookupReg (l ++ [(u, p, b)]) u = some (p, b) := by
  induction l with
  | nil => simp [lookupReg]
  | cons e rest ih =>
    obtain ⟨e1, e2, e3⟩ := e
    rw [lookupReg] at h
    by_cases he : e1 == u
    · simp [he] at h
    · rw [if_neg he] at h
      simp only [List.cons_append, lookupReg, if_neg he]
      exact ih h

theorem lookupA_append {l : List (String × String)} {u v : String}
    (l2 : List (String × String)) (h : lookupA l u = some v) :
    lookupA (l ++ l2) u = some v := by
  induction l with
  | nil => simp [lookupA] at h
  | cons e rest ih =>
    obtain ⟨e1, e2⟩ := e
    rw [lookupA] at h
    by_cases he : e1 == u
    · simp only [List.cons_append, lookupA, if_pos he]
      simpa [he] using h
    · rw [if_neg he] at h
      simp only [List.cons_append, lookupA, if_neg he]
      exact ih h

theorem lookupA_append_fresh {l : List (String × String)} {u : String}
    (v : String) (h : lookupA l u = none) :
    lookupA (l ++ [(u, v)]) u = some v := by
  induction l with
  | nil => simp [lookupA]
  | cons e rest ih =>
    obtain ⟨e1, e2⟩ := e
    rw [lookupA] at h
    by_cases he : e1 == u
    · simp [he] at h
    · rw [if_neg he] at h
      simp only [List.cons_append, lookupA, if_neg he]
      exact ih h

theorem mintUid_length (c : Nat) : (mintUid c).length = 8 + c := by
  simp [mintUid, String.length_append, String.length]
  omega

theorem serInv_fresh {st : SerState} (h : SerInv st) :
    lookupReg st.registry (mintUid st.counter) = none := by
  cases hl : lookupReg st.registry (mintUid st.counter) with
  | none => rfl
  | some v =>
    exfalso
    obtain ⟨i, hi, hu⟩ := h.1 _ v.1 v.2 (by rw [hl])
    have := congrArg String.length hu
    rw [mintUid_length, mintUid_length] at this
    omega

theorem mint_startsB (c : Nat) :
    startsB "EXTRACT_".toList (mintUid c).toList = true := by
  have : (mintUid c).toList = "EXTRACT_".toList ++ (String.mk (List.replicate c 'u')).toList := by
    simp [mintUid, String.toList]
  rw [this]
  exact startsB_refl_append _ _

theorem serInv_empty : SerInv {} := by
  constructor
  · intro u p b h
    simp [lookupReg] at h
  · intro p u h
    simp [lookupA] at h

theorem regLe_refl (r : List (String × String × String)) : RegLe r r :=
  fun _ _ h => h

theorem regLe_trans {r1 r2 r3 : List (String × String × String)}
    (h1 : RegLe r1 r2) (h2 : RegLe r2 r3) : RegLe r1 r3 :=
  fun u v h => h2 u v (h1 u v h)

theorem regLe_append (r : List (String × String × String))
    (l2 : List (String × String × String)) : RegLe r (r ++ l2) :=
  fun _ _ h => lookupReg_append l2 h

theorem regLeJ_mono {r1 r2 : List (String × String × String)} {j : Json}
    (hle : RegLe r1 r2) (h : RegLeJ r2 j) : RegLeJ r1 j :=
  fun u p b hl => h u p b (hle u (p, b) hl)

theorem regToJson_leJ (reg : List (String × String × String)) :
    RegLeJ reg (regToJson reg) := by
  intro u p b h
  induction reg with
  | nil => simp [lookupReg] at h
  | cons e rest ih =>
    obtain ⟨e1, e2, e3⟩ := e
    rw [lookupReg] at h
    by_cases he : e1 == u
    · rw [if_pos he] at h
      simp only [Option.some.injEq, Prod.mk.injEq] at h
      refine ⟨[("path", .str e2), ("base", .str e3)], ?_, ?_, ?_⟩
      · simp [regToJson, jsonGet, lookupFirst, he, h.1, h.2]
      · simp [lookupFirst, h.1]
      · simp [lookupFirst, h.2]
    · rw [if_neg he] at h
      obtain ⟨ef, h1, h2, h3⟩ := ih h
      refine ⟨ef, ?_, h2, h3⟩
      simpa [regToJson, jsonGet, lookupFirst, he] using h1

theorem hasKey_keys {l1 l2 : List (String × Json)}
    (h : l1.map Prod.fst = l2.map Prod.fst) (k : String) :
    hasKey l1 k = hasKey l2 k := by
  have h1 : ∀ l : List (String × Json), hasKey l k = (l.map Prod.fst).any (fun x => x == k) := by
    intro l
    induction l with
    | nil => rfl
    | cons e rest ih =>
      simp only [hasKey] at ih ⊢
      simp [ih]
  rw [h1, h1, h]

theorem pickleKey_keys {l1 l2 : List (String × Json)}
    (h : l1.map Prod.fst = l2.map Prod.fst) :
    pickleKey l1 = pickleKey l2 := by
  rw [pickleKey, pickleKey, hasKey_keys h, hasKey_keys h]

theorem pickleKey_hasKey {fields : List (String × Json)} {k : String}
    (h : pickleKey fields = some k) : hasKey fields k = true := by
  rw [pickleKey] at h
  by_cases h1 : hasKey fields "py/object"
  · rw [if_pos h1] at h
    cases h
    exact h1
  · rw [if_neg h1] at h
    by_cases h2 : hasKey fields "py/type"
    · rw [if_pos h2] at h
      cases h
      exact h2
    · rw [if_neg h2] at h
      cases h

theorem lookupFirst_append_none {l : List (String × Json)} {k : String}
    (l2 : List (String × Json)) (h : lookupFirst l k = none) :
    lookupFirst (l ++ l2) k = lookupFirst l2 k := by
  induction l with
  | nil => simp
  | cons e rest ih =>
    obtain ⟨e1, e2⟩ := e
    rw [lookupFirst] at h
    by_cases he : e1 == k
    · simp [he] at h
    · rw [if_neg he] at h
      simp only [List.cons_append, lookupFirst, if_neg he]
      exact ih h

theorem removeFirst_append_none {l : List (String × Json)} {k : String}
    (l2 : List (String × Json)) (h : lookupFirst l k = none) :
    removeFirst (l ++ l2) k = l ++ removeFirst l2 k := by
  induction l with
  | nil => simp
  | cons e rest ih =>
    obtain ⟨e1, e2⟩ := e
    rw [lookupFirst] at h
    by_cases he : e1 == k
    · simp [he] at h
    · rw [if_neg he] at h
      simp only [List.cons_append, removeFirst, if_neg he]
      simp [ih h]

theorem hasKey_append (l1 l2 : List (String × Json)) (k : String) :
    hasKey (l1 ++ l2) k = (hasKey l1 k || hasKey l2 k) := by
  simp [hasKey]

theorem lookupReg_append_cases {l : List (String × String × String)}
    {k0 p0 b0 u : String} {v : String × String}
    (h : lookupReg (l ++ [(k0, p0, b0)]) u = some v) :
    lookupReg l u = some v ∨ (lookupReg l u = none ∧ u = k0 ∧ v = (p0, b0)) := by
  induction l with
  | nil =>
    simp only [List.nil_append, lookupReg] at h
    by_cases he : k0 == u
    · rw [if_pos he] at h
      right
      refine ⟨rfl, (beq_iff_eq.1 he).symm, by simpa using h.symm⟩
    · rw [if_neg he] at h
      simp [lookupReg] at h
  | cons e rest ih =>
    obtain ⟨e1, e2, e3⟩ := e
    simp only [List.cons_append, lookupReg] at h ⊢
    by_cases he : e1 == u
    · rw [if_pos he] at h
      left
      rw [if_pos he]
      exact h
    · rw [if_neg he] at h
      rw [if_neg he]
      exact ih h

theorem lookupA_append_cases {l : List (String × String)} {k0 v0 u : String} {v : String}
    (h : lookupA (l ++ [(k0, v0)]) u = some v) :
    lookupA l u = some v ∨ (lookupA l u = none ∧ u = k0 ∧ v = v0) := by
  induction l with
  | nil =>
    simp only [List.nil_append, lookupA] at h
    by_cases he : k0 == u
    · rw [if_pos he] at h
      right
      refine ⟨rfl, (beq_iff_eq.1 he).symm, by simpa using h.symm⟩
    · rw [if_neg he] at h
      simp [lookupA] at h
  | cons e rest ih =>
    obtain ⟨e1, e2⟩ := e
    simp only [List.cons_append, lookupA] at h ⊢
    by_cases he : e1 == u
    · rw [if_pos he] at h
      left
      rw [if_pos he]
      exact h
    · rw [if_neg he] at h
      rw [if_neg he]
      exact ih h

/-- The decode callback restores an opaque key to its override, or to the
recorded identifier when that is currently known, without warnings. -/
theorem desTag_resolves (envD : TypeEnv) (ov : List (String × String)) (strict : Bool)
    (regJ : Json) {f2 : List (String × Json)} {k uid p b0 : String}
    (ws : List String)
    (hpk2 : pickleKey f2 = some k)
    (hlook : lookupFirst f2 k = some (.str uid))
    (hstart : startsB "EXTRACT_".toList uid.toList = true)
    {ef : List (String × Json)} (hjg : jsonGet regJ uid = some (.obj ef))
    (hpath : lookupFirst ef "path" = some (.str p))
    (hbase : lookupFirst ef "base" = some (.str b0))
    (hre : ((lookupA ov p).isSome || envD.allClasses.contains p) = true) :
    desTag envD ov strict regJ f2 ws = .ok (some (k, ovF ov p), ws) := by
  simp only [desTag, hpk2, hlook, hjg, hstart, Option.isSome_some, Bool.and_self,
    if_true, hpath, hbase]
  cases hov : lookupA ov p with
  | some o => simp [ovF, hov]
  | none =>
    rw [hov] at hre
    simp only [Option.isSome_none, Bool.false_or] at hre
    have hmem : p ∈ envD.allClasses := by simpa using hre
    simp [hov, hmem, ovF]

/-- Round-trip master induction: serializing a document whose every type
tag is override-covered or currently known succeeds, maintains the
serializer invariant while only extending the registry, and the phase-2
decode of the result (against any registry document subsuming the final
registry) restores exactly the override-substituted original without
warnings or errors. -/
theorem walk_master (envS envD : TypeEnv) (ov : List (String × String)) (strict : Bool) :
    ∀ n : Nat,
    (∀ (t : Json) (st : SerState), jsizeJ t ≤ n →
      tagsOkJ envD.allClasses ov t = true → SerInv st →
      ∃ t2 st', walkJ (serTag envS) t st = .ok (t2, st')
        ∧ SerInv st' ∧ RegLe st.registry st'.registry
        ∧ (∀ fields, t = .obj fields →
            ∃ f2, t2 = .obj f2 ∧ f2.map Prod.fst = fields.map Prod.fst)
        ∧ (∀ regJ ws, RegLeJ st'.registry regJ →
            walkJ (desTag envD ov strict regJ) t2 ws = .ok (mapTagsJ (ovF ov) t, ws)))
    ∧ (∀ (l : List Json) (st : SerState), jsizeL l ≤ n →
      tagsOkL envD.allClasses ov l = true → SerInv st →
      ∃ l2 st', walkL (serTag envS) l st = .ok (l2, st')
        ∧ SerInv st' ∧ RegLe st.registry st'.registry
        ∧ (∀ regJ ws, RegLeJ st'.registry regJ →
            walkL (desTag envD ov strict regJ) l2 ws = .ok (mapTagsL (ovF ov) l, ws)))
    ∧ (∀ (fields : List (String × Json)) (st : SerState), jsizeF fields ≤ n →
      tagsOkF envD.allClasses ov fields = true → SerInv st →
      (∃ f2 st', walkF (serTag envS) none fields st = .ok (f2, st')
        ∧ SerInv st' ∧ RegLe st.registry st'.registry
        ∧ f2.map Prod.fst = fields.map Prod.fst
        ∧ (∀ regJ ws, RegLeJ st'.registry regJ →
            walkF (desTag envD ov strict regJ) none f2 ws
              = .ok (mapTagsF (ovF ov) fields, ws)))
      ∧ (∀ rk rv, ∃ f2 st', walkF (serTag envS) (some (rk, rv)) fields st = .ok (f2, st')
        ∧ SerInv st' ∧ RegLe st.registry st'.registry
        ∧ f2.map Prod.fst = fields.map Prod.fst
        ∧ (hasKey fields rk = true → lookupFirst f2 rk = some (.str rv))
        ∧ (∀ regJ ws fp, RegLeJ st'.registry regJ →
            walkF (desTag envD ov strict regJ) (some (rk, fp)) f2 ws
              = .ok (replaceFirstVal (mapTagsF (ovF ov) fields) rk (.str fp), ws)))) := by
  intro n
  induction n using Nat.strong_induction_on with
  | _ n IH =>
  refine ⟨?_, ?_, ?_⟩
  · -- single document
    intro t st hsize htags hinv
    cases t with
    | null =>
      exact ⟨.null, st, by simp [walkJ], hinv, regLe_refl _,
        fun fields h => Json.noConfusion h,
        fun regJ ws _ => by simp [walkJ, mapTagsJ]⟩
    | bool b =>
      exact ⟨.bool b, st, by simp [walkJ], hinv, regLe_refl _,
        fun fields h => Json.noConfusion h,
        fun regJ ws _ => by simp [walkJ, mapTagsJ]⟩
    | num m =>
      exact ⟨.num m, st, by simp [walkJ], hinv, regLe_refl _,
        fun fields h => Json.noConfusion h,
        fun regJ ws _ => by simp [walkJ, mapTagsJ]⟩
    | str s =>
      exact ⟨.str s, st, by simp [walkJ], hinv, regLe_refl _,
        fun fields h => Json.noConfusion h,
        fun regJ ws _ => by simp [walkJ, mapTagsJ]⟩
    | arr items =>
      simp only [jsizeJ] at hsize
      simp only [tagsOkJ] at htags
      obtain ⟨l2, st', hser, hinv', hreg, hdes⟩ :=
        (IH (n - 1) (by omega)).2.1 items st (by omega) htags hinv
      refine ⟨.arr l2, st', ?_, hinv', hreg, fun fields h => Json.noConfusion h, ?_⟩
      · simp only [walkJ, hser]
      · intro regJ ws hle
        simp only [walkJ, hdes regJ ws hle, mapTagsJ]
    | obj fields =>
      simp only [jsizeJ] at hsize
      simp only [tagsOkJ, Bool.and_eq_true] at htags
      obtain ⟨htag1, htagF⟩ := htags
      cases hpk : pickleKey fields with
      | none =>
        have hser1 : serTag envS fields st = .ok (none, st) := by
          simp [serTag, hpk]
        obtain ⟨f2, st', hserF, hinv', hreg, hkeys, hdesF⟩ :=
          ((IH (n - 1) (by omega)).2.2 fields st (by omega) htagF hinv).1
        refine ⟨.obj f2, st', ?_, hinv', hreg, ?_, ?_⟩
        · simp only [walkJ, hser1, hserF]
        · intro fields0 h
          injection h with h
          exact ⟨f2, rfl, h ▸ hkeys⟩
        · intro regJ ws hle
          have hpk2 : pickleKey f2 = none := by rw [pickleKey_keys hkeys, hpk]
          have hdtag : desTag envD ov strict regJ f2 ws = .ok (none, ws) := by
            simp [desTag, hpk2]
          simp only [walkJ, hdtag, hdesF regJ ws hle, mapTagsJ, hpk]
      | some k =>
        simp only [hpk] at htag1
        cases hlf : lookupFirst fields k with
        | none => simp [hlf] at htag1
        | some v =>
          simp only [hlf] at htag1
          cases v with
          | str p =>
            have htagp : ((lookupA ov p).isSome || envD.allClasses.contains p) = true := by
              simpa using htag1
            cases hrev : lookupA st.reverse p with
            | some uid =>
              -- dedup: reuse the recorded opaque key
              have hser1 : serTag envS fields st = .ok (some (k, uid), st) := by
                simp [serTag, hpk, hlf, hrev]
              obtain ⟨b0, hregu⟩ := hinv.2 p uid hrev
              obtain ⟨f2, st', hserF, hinv', hreg, hkeys, hlook, hdesF⟩ :=
                ((IH (n - 1) (by omega)).2.2 fields st (by omega) htagF hinv).2 k uid
              refine ⟨.obj f2, st', ?_, hinv', hreg, ?_, ?_⟩
              · simp only [walkJ, hser1, hserF]
              · intro fields0 h
                injection h with h
                exact ⟨f2, rfl, h ▸ hkeys⟩
              · intro regJ ws hle
                have hregu' : lookupReg st'.registry uid = some (p, b0) :=
                  hreg _ _ hregu
                obtain ⟨i, _, hui⟩ := hinv'.1 _ _ _ hregu'
                obtain ⟨ef, hjg, hpath, hbase⟩ := hle uid p b0 hregu'
                have hpk2 : pickleKey f2 = some k := by rw [pickleKey_keys hkeys, hpk]
                have hdtag := desTag_resolves envD ov strict regJ ws hpk2
                  (hlook (pickleKey_hasKey hpk)) (hui ▸ mint_startsB i) hjg hpath hbase htagp
                simp only [walkJ, hdtag, hdesF regJ ws (ovF ov p) hle, mapTagsJ, hpk, hlf]
            | none =>
              -- mint a fresh opaque key
              have hser1 : serTag envS fields st
                  = .ok (some (k, mintUid st.counter),
                      { registry := st.registry
                          ++ [(mintUid st.counter, p, (classifyPath envS p).1)],
                        reverse := st.reverse ++ [(p, mintUid st.counter)],
                        counter := st.counter + 1,
                        warns := st.warns ++ (classifyPath envS p).2 }) := by
                simp [serTag, hpk, hlf, hrev]
              have hfresh := serInv_fresh hinv
              have hinv1 : SerInv
                  { registry := st.registry
                      ++ [(mintUid st.counter, p, (classifyPath envS p).1)],
                    reverse := st.reverse ++ [(p, mintUid st.counter)],
                    counter := st.counter + 1,
                    warns := st.warns ++ (classifyPath envS p).2 } := by
                constructor
                · intro u p' b' h
                  rcases lookupReg_append_cases h with h | ⟨_, rfl, _⟩
                  · obtain ⟨i, hi, hu⟩ := hinv.1 u p' b' h
                    exact ⟨i, show i < st.counter + 1 by omega, hu⟩
                  · exact ⟨st.counter, show st.counter < st.counter + 1 by omega, rfl⟩
                · intro p' u' h
                  rcases lookupA_append_cases h with h | ⟨_, rfl, rfl⟩
                  · obtain ⟨b', hb⟩ := hinv.2 p' u' h
                    exact ⟨b', lookupReg_append _ hb⟩
                  · exact ⟨_, lookupReg_append_fresh _ _ hfresh⟩
              obtain ⟨f2, st', hserF, hinv', hreg, hkeys, hlook, hdesF⟩ :=
                ((IH (n - 1) (by omega)).2.2 fields _ (by omega) htagF hinv1).2
                  k (mintUid st.counter)
              refine ⟨.obj f2, st', ?_, hinv',
                regLe_trans (regLe_append _ _) hreg, ?_, ?_⟩
              · simp only [walkJ, hser1, hserF]
              · intro fields0 h
                injection h with h
                exact ⟨f2, rfl, h ▸ hkeys⟩
              · intro regJ ws hle
                have hregu' : lookupReg st'.registry (mintUid st.counter)
                    = some (p, (classifyPath envS p).1) :=
                  hreg _ _ (lookupReg_append_fresh _ _ hfresh)
                obtain ⟨ef, hjg, hpath, hbase⟩ := hle _ p _ hregu'
                have hpk2 : pickleKey f2 = some k := by rw [pickleKey_keys hkeys, hpk]
                have hdtag := desTag_resolves envD ov strict regJ ws hpk2
                  (hlook (pickleKey_hasKey hpk)) (mint_startsB st.counter) hjg hpath hbase htagp
                simp only [walkJ, hdtag, hdesF regJ ws (ovF ov p) hle, mapTagsJ, hpk, hlf]
          | null => simp at htag1
          | bool b => simp at htag1
          | num m => simp at htag1
          | arr l => simp at htag1
          | obj f => simp at htag1
  · -- array elements
    intro l st hsize htags hinv
    cases l with
    | nil =>
      exact ⟨[], st, by simp [walkL], hinv, regLe_refl _,
        fun regJ ws _ => by simp [walkL, mapTagsL]⟩
    | cons x rest =>
      simp only [jsizeL] at hsize
      simp only [tagsOkL, Bool.and_eq_true] at htags
      obtain ⟨hx, hrest⟩ := htags
      obtain ⟨x2, st1, hserx, hinv1, hreg1, _, hdesx⟩ :=
        (IH (n - 1) (by omega)).1 x st (by omega) hx hinv
      obtain ⟨rest2, st', hserr, hinv', hreg2, hdesr⟩ :=
        (IH (n - 1) (by omega)).2.1 rest st1 (by omega) hrest hinv1
      refine ⟨x2 :: rest2, st', ?_, hinv', regLe_trans hreg1 hreg2, ?_⟩
      · simp only [walkL, hserx, hserr]
      · intro regJ ws hle
        simp only [walkL, hdesx regJ ws (regLeJ_mono hreg2 hle), hdesr regJ ws hle,
          mapTagsL]
  · -- mapping fields
    intro fields st hsize htags hinv
    cases fields with
    | nil =>
      constructor
      · exact ⟨[], st, by simp [walkF], hinv, regLe_refl _, rfl,
          fun regJ ws _ => by simp [walkF, mapTagsF]⟩
      · intro rk rv
        refine ⟨[], st, by simp [walkF], hinv, regLe_refl _, rfl, ?_, ?_⟩
        · intro h
          simp [hasKey] at h
        · intro regJ ws fp _
          simp [walkF, mapTagsF, replaceFirstVal]
    | cons kv rest =>
      obtain ⟨k, v⟩ := kv
      simp only [jsizeF] at hsize
      simp only [tagsOkF, Bool.and_eq_true] at htags
      obtain ⟨hv, hrest⟩ := htags
      constructor
      · obtain ⟨v2, st1, hserv, hinv1, hreg1, _, hdesv⟩ :=
          (IH (n - 1) (by omega)).1 v st (by omega) hv hinv
        obtain ⟨rest2, st', hserr, hinv', hreg2, hkeys, hdesr⟩ :=
          ((IH (n - 1) (by omega)).2.2 rest st1 (by omega) hrest hinv1).1
        refine ⟨(k, v2) :: rest2, st', ?_, hinv', regLe_trans hreg1 hreg2, ?_, ?_⟩
        · simp only [walkF, hserv, hserr]
        · simp [hkeys]
        · intro regJ ws hle
          simp only [walkF, hdesv regJ ws (regLeJ_mono hreg2 hle), hdesr regJ ws hle,
            mapTagsF]
      · intro rk rv
        by_cases hkk : k == rk
        · obtain ⟨rest2, st', hserr, hinv', hreg', hkeys, hdesr⟩ :=
            ((IH (n - 1) (by omega)).2.2 rest st (by omega) hrest hinv).1
          refine ⟨(k, .str rv) :: rest2, st', ?_, hinv', hreg', ?_, ?_, ?_⟩
          · simp only [walkF, if_pos hkk, hserr]
          · simp [hkeys]
          · intro _
            simp [lookupFirst, hkk]
          · intro regJ ws fp hle
            simp only [walkF, if_pos hkk, hdesr regJ ws hle, mapTagsF,
              replaceFirstVal, if_pos hkk]
        · obtain ⟨v2, st1, hserv, hinv1, hreg1, _, hdesv⟩ :=
            (IH (n - 1) (by omega)).1 v st (by omega) hv hinv
          obtain ⟨rest2, st', hserr, hinv', hreg2, hkeys, hlookr, hdesr⟩ :=
            ((IH (n - 1) (by omega)).2.2 rest st1 (by omega) hrest hinv1).2 rk rv
          refine ⟨(k, v2) :: rest2, st', ?_, hinv', regLe_trans hreg1 hreg2, ?_, ?_, ?_⟩
          · simp only [walkF, if_neg hkk, hserv, hserr]
          · simp [hkeys]
          · intro h
            simp only [hasKey, List.any_cons, Bool.or_eq_true] at h
            rcases h with h | h
            · exact absurd h hkk
            · rw [lookupFirst, if_neg hkk]
              exact hlookr h
          · intro regJ ws fp hle
            simp only [walkF, if_neg hkk, hdesv regJ ws (regLeJ_mono hreg2 hle),
              hdesr regJ ws fp hle, mapTagsF, replaceFirstVal, if_neg hkk]

theorem lookupFirst_eq_none_of_hasKey {l : List (String × Json)} {k : String}
    (h : hasKey l k = false) : lookupFirst l k = none := by
  induction l with
  | nil => rfl
  | cons e rest ih =>
    obtain ⟨e1, e2⟩ := e
    simp only [hasKey, List.any_cons, Bool.or_eq_false_iff] at h
    rw [lookupFirst, if_neg (by simp [h.1])]
    exact ih (by simpa [hasKey] using h.2)

theorem setKey_of_hasKey_false {l : List (String × Json)} {k : String} (v : Json)
    (h : hasKey l k = false) : setKey l k v = l ++ [(k, v)] := by
  induction l with
  | nil => rfl
  | cons e rest ih =>
    obtain ⟨e1, e2⟩ := e
    simp only [hasKey, List.any_cons, Bool.or_eq_false_iff] at h
    rw [setKey, if_neg (by simp [h.1])]
    simp only [List.cons_append]
    rw [ih (by simpa [hasKey] using h.2)]

theorem validate_ok (env : TypeEnv) (ov : List (String × String)) (strict : Bool)
    (h : ∀ kv ∈ ov, env.overrideOk kv.1 kv.2 = true) :
    validate_type_overrides env ov strict = .ok [] := by
  have hf : ov.filter (fun kv => !(env.overrideOk kv.1 kv.2)) = [] := by
    rw [List.filter_eq_nil_iff]
    intro kv hkv
    simp [h kv hkv]
  simp [validate_type_overrides, hf]

theorem tagsOk_encodeNode (known : List String) (ov : List (String × String)) (n : Node)
    (h : ((lookupA ov n.cls).isSome || known.contains n.cls) = true) :
    tagsOkJ known ov (encodeNode n) = true := by
  have h' : (lookupA ov n.cls).isSome = true ∨ n.cls ∈ known := by simpa using h
  cases hnt : n.node_type with
  | none =>
    simp [encodeNode, tagsOkJ, tagsOkF, pickleKey, hasKey, lookupFirst, h', hnt]
  | some s =>
    simp [encodeNode, tagsOkJ, tagsOkF, pickleKey, hasKey, lookupFirst, h', hnt]

theorem tagsOk_encodeEdge (known : List String) (ov : List (String × String)) (e : Edge)
    (hc : ((lookupA ov e.cls).isSome || known.contains e.cls) = true)
    (ha : ((lookupA ov e.node_a.cls).isSome || known.contains e.node_a.cls) = true)
    (hb : ((lookupA ov e.node_b.cls).isSome || known.contains e.node_b.cls) = true) :
    tagsOkJ known ov (encodeEdge e) = true := by
  have hc' : (lookupA ov e.cls).isSome = true ∨ e.cls ∈ known := by simpa using hc
  have ha' : (lookupA ov e.node_a.cls).isSome = true ∨ e.node_a.cls ∈ known := by
    simpa using ha
  have hb' : (lookupA ov e.node_b.cls).isSome = true ∨ e.node_b.cls ∈ known := by
    simpa using hb
  cases hna : e.node_a.node_type <;> cases hnb : e.node_b.node_type <;>
    simp [encodeEdge, encodeNode, tagsOkJ, tagsOkF, pickleKey, hasKey, lookupFirst,
      hc', ha', hb', hna, hnb]

theorem tagsOkL_nodes (known : List String) (ov : List (String × String))
    (ns : List Node)
    (h : ∀ n ∈ ns, ((lookupA ov n.cls).isSome || known.contains n.cls) = true) :
    tagsOkL known ov (ns.map encodeNode) = true := by
  induction ns with
  | nil => rfl
  | cons n rest ih =>
    simp only [List.map_cons, tagsOkL, Bool.and_eq_true]
    exact ⟨tagsOk_encodeNode known ov n (h n (by simp)),
      ih (fun m hm => h m (by simp [hm]))⟩

theorem tagsOkL_edges (known : List String) (ov : List (String × String))
    (es : List Edge)
    (h : ∀ e ∈ es, ((lookupA ov e.cls).isSome || known.contains e.cls) = true
      ∧ ((lookupA ov e.node_a.cls).isSome || known.contains e.node_a.cls) = true
      ∧ ((lookupA ov e.node_b.cls).isSome || known.contains e.node_b.cls) = true) :
    tagsOkL known ov (es.map encodeEdge) = true := by
  induction es with
  | nil => rfl
  | cons e rest ih =>
    simp only [List.map_cons, tagsOkL, Bool.and_eq_true]
    obtain ⟨hc, ha, hb⟩ := h e (by simp)
    exact ⟨tagsOk_encodeEdge known ov e hc ha hb,
      ih (fun x hx => h x (by simp [hx]))⟩

theorem tagsOk_encodeGraph (known : List String) (ov : List (String × String)) (g : Graph)
    (h : ∀ p ∈ graphPaths g, ((lookupA ov p).isSome || known.contains p) = true) :
    tagsOkJ known ov (encodeGraph g) = true := by
  have hg : ((lookupA ov graphPath).isSome || known.contains graphPath) = true :=
    h graphPath (by simp [graphPaths])
  have hn : tagsOkL known ov (g.nodes.map encodeNode) = true :=
    tagsOkL_nodes known ov g.nodes
      (fun n hn => h n.cls (by simp [graphPaths]; right; left; exact ⟨n, hn, rfl⟩))
  have he : tagsOkL known ov (g.edges.map encodeEdge) = true :=
    tagsOkL_edges known ov g.edges
      (fun e hee => ⟨h e.cls (by simp [graphPaths]; right; right; left; exact ⟨e, hee, rfl⟩),
        h e.node_a.cls (by
          simp [graphPaths]; right; right; right; left; exact ⟨e, hee, rfl⟩),
        h e.node_b.cls (by
          simp [graphPaths]; right; right; right; right; exact ⟨e, hee, rfl⟩)⟩)
  have hg' : (lookupA ov graphPath).isSome = true ∨ graphPath ∈ known := by simpa using hg
  simp [encodeGraph, tagsOkJ, tagsOkF, pickleKey, hasKey, lookupFirst, hg', hn, he]

theorem mapTags_encodeNode (f : String → String) (n : Node) :
    mapTagsJ f (encodeNode n) = encodeNodeF f n := by
  cases hnt : n.node_type with
  | none =>
    simp [encodeNode, encodeNodeF, mapTagsJ, mapTagsF, pickleKey, hasKey,
      lookupFirst, replaceFirstVal, hnt]
  | some s =>
    simp [encodeNode, encodeNodeF, mapTagsJ, mapTagsF, pickleKey, hasKey,
      lookupFirst, replaceFirstVal, hnt]

theorem mapTags_encodeEdge (f : String → String) (e : Edge) :
    mapTagsJ f (encodeEdge e) = encodeEdgeF f e := by
  cases hna : e.node_a.node_type <;> cases hnb : e.node_b.node_type <;>
    simp [encodeEdge, encodeEdgeF, encodeNode, encodeNodeF, mapTagsJ, mapTagsF,
      pickleKey, hasKey, lookupFirst, replaceFirstVal, hna, hnb]

theorem mapTagsL_nodes (f : String → String) (ns : List Node) :
    mapTagsL f (ns.map encodeNode) = ns.map (encodeNodeF f) := by
  induction ns with
  | nil => rfl
  | cons n rest ih => simp [mapTagsL, mapTags_encodeNode, ih]

theorem mapTagsL_edges (f : String → String) (es : List Edge) :
    mapTagsL f (es.map encodeEdge) = es.map (encodeEdgeF f) := by
  induction es with
  | nil => rfl
  | cons e rest ih => simp [mapTagsL, mapTags_encodeEdge, ih]

theorem mapTags_encodeGraph (f : String → String) (g : Graph) :
    mapTagsJ f (encodeGraph g) = encodeGraphF f g := by
  simp [encodeGraph, encodeGraphF, mapTagsJ, mapTagsF, pickleKey, hasKey,
    lookupFirst, replaceFirstVal, mapTagsL_nodes, mapTagsL_edges]

theorem decodeNode_encodeNodeF (f : String → String) (n : Node) :
    decodeNode (encodeNodeF f n) = some (retagNode f n) := by
  cases hnt : n.node_type with
  | none => simp [encodeNodeF, decodeNode, lookupFirst, retagNode, hnt]
  | some s => simp [encodeNodeF, decodeNode, lookupFirst, retagNode, hnt]

theorem decodeEdge_encodeEdgeF (f : String → String) (e : Edge) :
    decodeEdge (encodeEdgeF f e) = some (retagEdge f e) := by
  cases hna : e.node_a.node_type <;> cases hnb : e.node_b.node_type <;>
    simp [encodeEdgeF, encodeNodeF, decodeEdge, decodeNode, lookupFirst, retagEdge,
      retagNode, hna, hnb]

theorem mapO_decodeNodes (f : String → String) (ns : List Node) :
    mapO decodeNode (ns.map (encodeNodeF f)) = some (ns.map (retagNode f)) := by
  induction ns with
  | nil => rfl
  | cons n rest ih =>
    simp [mapO, decodeNode_encodeNodeF, ih]

theorem mapO_decodeEdges (f : String → String) (es : List Edge) :
    mapO decodeEdge (es.map (encodeEdgeF f)) = some (es.map (retagEdge f)) := by
  induction es with
  | nil => rfl
  | cons e rest ih =>
    simp [mapO, decodeEdge_encodeEdgeF, ih]

theorem decode_encodeGraphF (f : String → String) (g : Graph) :
    decodeGraph (encodeGraphF f g)
      = some { nodes := g.nodes.map (retagNode f), edges := g.edges.map (retagEdge f) } := by
  simp [encodeGraphF, decodeGraph, lookupFirst, mapO_decodeNodes, mapO_decodeEdges]

theorem forall₂_retagNodes (f : String → String) (ns : List Node) :
    List.Forall₂ nodeFieldsEq ns (ns.map (retagNode f)) := by
  induction ns with
  | nil => exact List.Forall₂.nil
  | cons n rest ih =>
    exact List.Forall₂.cons ⟨rfl, rfl, rfl, rfl⟩ ih

theorem forall₂_retagEdges (f : String → String) (es : List Edge) :
    List.Forall₂ edgeFieldsEq es (es.map (retagEdge f)) := by
  induction es with
  | nil => exact List.Forall₂.nil
  | cons e rest ih =>
    exact List.Forall₂.cons ⟨rfl, ⟨rfl, rfl, rfl, rfl⟩, ⟨rfl, rfl, rfl, rfl⟩⟩ ih

/-- C1: for every graph whose every type identifier is either covered by the
caller-supplied override map or currently known at load time, and whose
overrides are valid, `save` succeeds and `load` of the saved document
succeeds, yielding a graph with the same number of nodes and edges whose
corresponding nodes and edges agree pairwise on every persisted field — in
particular when classes were renamed between save and load and the override
map supplies the new identifiers. -/
theorem save_load_roundtrip (envS envD : TypeEnv) (g : Graph)
    (ov : List (String × String))
    (hresolve : ∀ p ∈ graphPaths g,
      ((lookupA ov p).isSome || envD.allClasses.contains p) = true)
    (hovvalid : ∀ kv ∈ ov, envD.overrideOk kv.1 kv.2 = true) :
    ∃ doc g2, save envS g = .ok doc ∧ load envD ov doc = .ok g2
      ∧ g2.nodes.length = g.nodes.length
      ∧ g2.edges.length = g.edges.length
      ∧ List.Forall₂ nodeFieldsEq g.nodes g2.nodes
      ∧ List.Forall₂ edgeFieldsEq g.edges g2.edges := by
  have htags : tagsOkJ envD.allClasses ov (encodeGraph g) = true :=
    tagsOk_encodeGraph envD.allClasses ov g hresolve
  obtain ⟨t2, st', hwalk, hinv', hle, hshape, hdes⟩ :=
    ((walk_master envS envD ov false (jsizeJ (encodeGraph g))).1
      (encodeGraph g) {} le_rfl htags serInv_empty)
  obtain ⟨f2, ht2, hkeys⟩ := hshape
    [("py/object", .str graphPath), ("nodes", .arr (g.nodes.map encodeNode)),
      ("edges", .arr (g.edges.map encodeEdge))] rfl
  have hnoReg : hasKey f2 "REGISTRY" = false := by
    rw [hasKey_keys hkeys]
    simp [hasKey]
  have hsetk : setKey f2 "REGISTRY" (regToJson st'.registry)
      = f2 ++ [("REGISTRY", regToJson st'.registry)] :=
    setKey_of_hasKey_false _ hnoReg
  have hsave : save envS g
      = .ok (.obj (f2 ++ [("REGISTRY", regToJson st'.registry)])) := by
    simp only [save, serialize_phase2, hwalk, ht2, hsetk]
  have hhk : hasKey (f2 ++ [("REGISTRY", regToJson st'.registry)]) "REGISTRY" = true := by
    rw [hasKey_append, hnoReg]
    simp [hasKey]
  have hlfn : lookupFirst f2 "REGISTRY" = none := lookupFirst_eq_none_of_hasKey hnoReg
  have hlf : lookupFirst (f2 ++ [("REGISTRY", regToJson st'.registry)]) "REGISTRY"
      = some (regToJson st'.registry) := by
    rw [lookupFirst_append_none _ hlfn]
    simp [lookupFirst]
  have hrm : removeFirst (f2 ++ [("REGISTRY", regToJson st'.registry)]) "REGISTRY"
      = f2 := by
    rw [removeFirst_append_none _ hlfn]
    simp [removeFirst]
  have hval : validate_type_overrides envD ov true = .ok [] :=
    validate_ok envD ov true hovvalid
  have hwd := hdes (regToJson st'.registry) [] (regToJson_leJ st'.registry)
  rw [ht2] at hwd
  have hdeser : deserialize_phase2 envD ov false true
      (Json.obj (f2 ++ [("REGISTRY", regToJson st'.registry)]))
      = .ok (mapTagsJ (ovF ov) (encodeGraph g), []) := by
    simp only [deserialize_phase2, hval, hlf, Option.getD_some, hrm, hwd]
  have hdec : decodeGraph (mapTagsJ (ovF ov) (encodeGraph g))
      = some { nodes := g.nodes.map (retagNode (ovF ov)),
               edges := g.edges.map (retagEdge (ovF ov)) } := by
    rw [mapTags_encodeGraph]
    exact decode_encodeGraphF (ovF ov) g
  have hload : load envD ov (.obj (f2 ++ [("REGISTRY", regToJson st'.registry)]))
      = .ok { nodes := g.nodes.map (retagNode (ovF ov)),
              edges := g.edges.map (retagEdge (ovF ov)) } := by
    simp [load, hhk, hdeser, hdec]
  refine ⟨_, _, hsave, hload, by simp, by simp,
    forall₂_retagNodes (ovF ov) g.nodes, forall₂_retagEdges (ovF ov) g.edges⟩

theorem save_load_roundtrip_witness :
    (∀ p ∈ graphPaths wRtG,
      ((lookupA wRtOv p).isSome || wRtEnv.allClasses.contains p) = true)
    ∧ (∀ kv ∈ wRtOv, wRtEnv.overrideOk kv.1 kv.2 = true)
    ∧ ∃ doc g2, save wRtEnv wRtG = .ok doc ∧ load wRtEnv wRtOv doc = .ok g2
      ∧ g2.nodes.length = wRtG.nodes.length
      ∧ g2.edges.length = wRtG.edges.length
      ∧ List.Forall₂ nodeFieldsEq wRtG.nodes g2.nodes
      ∧ List.Forall₂ edgeFieldsEq wRtG.edges g2.edges :=
  ⟨by decide, by decide,
    save_load_roundtrip wRtEnv wRtEnv wRtG wRtOv (by decide) (by decide)⟩

/-- The full branch structure of the decode callback on a mapping whose type
tag is an opaque key with a registry entry recording identifier `p` and base
category `b0`. -/
theorem desTag_branch_eq (env : TypeEnv) (ov : List (String × String)) (strict : Bool)
    (regJ : Json) {f2 : List (String × Json)} {k uid p b0 : String}
    (ws : List String)
    (hpk2 : pickleKey f2 = some k)
    (hlook : lookupFirst f2 k = some (.str uid))
    (hstart : startsB "EXTRACT_".toList uid.toList = true)
    {ef : List (String × Json)} (hjg : jsonGet regJ uid = some (.obj ef))
    (hpath : lookupFirst ef "path" = some (.str p))
    (hbase : lookupFirst ef "base" = some (.str b0)) :
    desTag env ov strict regJ f2 ws
      = (match lookupA ov p with
         | some o => .ok (some (k, o), ws)
         | none =>
           if env.allClasses.contains p then .ok (some (k, p), ws)
           else
             match find_type_fallback env p b0 with
             | some a =>
               .ok (some (k, a), ws ++ ["Fuzzy matched `" ++ p ++ "` to `" ++ a ++ "`"])
             | none =>
               if strict then .error (resErrMsg p)
               else .ok (some (k, p), ws ++ [resErrMsg p])) := by
  simp only [desTag, hpk2, hlook, hjg, hstart, Option.isSome_some, Bool.and_self,
    if_true, hpath, hbase, resErrMsg]

/-- C3: on a document whose single mapping's type tag is an opaque key whose
registry entry records original identifier `p` and base category `b`, the
phase-2 decode restores the identifier in the claimed order: a caller
override wins unconditionally and silently; else a currently known
identifier is kept exactly and silently; else the fuzzy fallback searches
the recorded base category's subtypes and then the original identifier's
top-level namespace at cutoff 7/10, a success substituting with a warning
naming the substitution; and when the fallback also fails, strict mode
raises the resolution error while lenient mode emits a warning and keeps
the unresolved identifier in place. -/
theorem deserialize_resolution_spec (env : TypeEnv) (ov : List (String × String))
    (strict : Bool) (p b : String)
    (hovvalid : ∀ kv ∈ ov, env.overrideOk kv.1 kv.2 = true) :
    (∀ o, lookupA ov p = some o →
      deserialize_phase2 env ov strict true (resDoc p b)
        = .ok (.obj [("py/object", .str o)], []))
    ∧ (lookupA ov p = none → env.allClasses.contains p = true →
      deserialize_phase2 env ov strict true (resDoc p b)
        = .ok (.obj [("py/object", .str p)], []))
    ∧ (∀ a, lookupA ov p = none → env.allClasses.contains p = false →
      find_type_fallback env p b = some a →
      deserialize_phase2 env ov strict true (resDoc p b)
        = .ok (.obj [("py/object", .str a)],
            ["Fuzzy matched `" ++ p ++ "` to `" ++ a ++ "`"]))
    ∧ (lookupA ov p = none → env.allClasses.contains p = false →
      find_type_fallback env p b = none →
      deserialize_phase2 env ov true true (resDoc p b) = .error (resErrMsg p))
    ∧ (lookupA ov p = none → env.allClasses.contains p = false →
      find_type_fallback env p b = none →
      deserialize_phase2 env ov false true (resDoc p b)
        = .ok (.obj [("py/object", .str p)], [resErrMsg p]))
    ∧ (find_type_fallback env p b
        = match fuzzy_type_match p (env.subclassesOf b) with
          | some a => some a
          | none => fuzzy_type_match p (env.moduleClasses (topNamespace p)))
    ∧ fuzzy_type_match p (env.subclassesOf b)
        = getCloseMatch1 (7/10) p (env.subclassesOf b) := by
  have hval : validate_type_overrides env ov true = .ok [] :=
    validate_ok env ov true hovvalid
  have hstep : ∀ strict' : Bool, deserialize_phase2 env ov strict' true (resDoc p b)
      = walkJ (desTag env ov strict'
          (Json.obj [("EXTRACT_u", .obj [("path", .str p), ("base", .str b)])]))
        (.obj [("py/object", .str "EXTRACT_u")]) [] := by
    intro strict'
    simp only [deserialize_phase2, hval, resDoc]
    rfl
  have hdt : ∀ (strict' : Bool) (ws : List String),
      desTag env ov strict'
          (Json.obj [("EXTRACT_u", .obj [("path", .str p), ("base", .str b)])])
          [("py/object", Json.str "EXTRACT_u")] ws
      = (match lookupA ov p with
         | some o => .ok (some ("py/object", o), ws)
         | none =>
           if env.allClasses.contains p then .ok (some ("py/object", p), ws)
           else
             match find_type_fallback env p b with
             | some a =>
               .ok (some ("py/object", a),
                 ws ++ ["Fuzzy matched `" ++ p ++ "` to `" ++ a ++ "`"])
             | none =>
               if strict' then .error (resErrMsg p)
               else .ok (some ("py/object", p), ws ++ [resErrMsg p])) := by
    intro strict' ws
    exact desTag_branch_eq env ov strict' _ ws rfl rfl rfl rfl rfl rfl
  refine ⟨?_, ?_, ?_, ?_, ?_, rfl, rfl⟩
  · intro o ho
    have h1 := hdt strict []
    rw [ho] at h1
    rw [hstep strict]
    simp only [walkJ, h1, walkF, beq_self_eq_true, if_true]
  · intro ho hc
    have h1 := hdt strict []
    rw [ho] at h1
    simp only [hc, if_true] at h1
    rw [hstep strict]
    simp only [walkJ, h1, walkF, beq_self_eq_true, if_true]
  · intro a ho hc hf
    have h1 := hdt strict []
    rw [ho] at h1
    simp only [hc, Bool.false_eq_true, if_false, hf] at h1
    rw [hstep strict]
    simp only [walkJ, h1, walkF, beq_self_eq_true, if_true, List.nil_append]
  · intro ho hc hf
    have h1 := hdt true []
    rw [ho] at h1
    simp only [hc, Bool.false_eq_true, if_false, hf, if_true] at h1
    rw [hstep true]
    simp only [walkJ, h1]
  · intro ho hc hf
    have h1 := hdt false []
    rw [ho] at h1
    simp only [hc, Bool.false_eq_true, if_false, hf] at h1
    rw [hstep false]
    simp only [walkJ, h1, walkF, beq_self_eq_true, if_true, List.nil_append]

theorem deserialize_resolution_spec_witness :
    (∀ kv ∈ wResOv, wResEnv.overrideOk kv.1 kv.2 = true)
    ∧ deserialize_phase2 wResEnv wResOv false true (resDoc "old.X" "Base")
        = .ok (.obj [("py/object", .str "new.X")], []) :=
  ⟨by decide,
    (deserialize_resolution_spec wResEnv wResOv false "old.X" "Base" (by decide)).1
      "new.X" (by decide)⟩

end NodeDB
